import Mathlib

/-!
# Marching squares, parallel version (`tema1_par.c`)

A shallow embedding of the worker routine `function` of `tema1_par.c`, of
`update_image` and of the exit paths of `main`, together with theorems about
the row partition, the downscale stage, the grid sampling pass, the marching
pass and the barrier.

Conventions of the embedding:

* C `int` values are natural numbers. The canvas has at most 2048 rows and
  2048 columns, so every index the code computes fits an `int`; the two
  `unsigned char` stores (`curr_color` and `k`) are reduced `% 256`
  explicitly. The subtraction `x - 1` of the boundary loops is evaluated only
  inside loops that run when `x ≥ step_x ≥ 1`, where it agrees with the
  truncated subtraction of the naturals.
* A buffer is a list; a read or write outside the buffer makes the routine
  return `none`.
* The shared canvas and the shared grid are passed explicitly. The passes of
  the `nrthread` workers are composed in thread order, all sampling passes
  first and all marching passes afterwards.
* `sample_bicubic` (in `helpers.c`) is a parameter of the downscale stage.
* The buffer positions a loop touches are collected in lists (`loopList`); the
  interleaving of the threads around the barrier is a scheduler stepping
  through the per-thread lists of steps (`run_schedule`).
-/

namespace Tema1

/-! ## Constants -/

def CONTOUR_CONFIG_COUNT : Nat := 16

def STEP : Nat := 8

def SIGMA : Nat := 200

def RESCALE_X : Nat := 2048

def RESCALE_Y : Nat := 2048

/-! ## Data model -/

/-- One pixel: three colour channels, each an `unsigned char` in the source. -/
structure ppm_pixel where
  red : Nat
  green : Nat
  blue : Nat
deriving DecidableEq, Repr

/-- An image: `x` rows of `y` pixels each, stored row-major in `data`
(pixel `(r, c)` is `data[r * y + c]`). -/
structure ppm_image where
  x : Nat
  y : Nat
  data : List ppm_pixel
deriving DecidableEq, Repr

/-- The sample grid `unsigned char **grid`: a list of rows. -/
abbrev Grid := List (List Nat)

/-- Source `min`: `(x < y) ? x : y`. -/
def min (x y : Nat) : Nat := if x < y then x else y

/-! ## Row partition

`start = thread_id * (double)extent / nrthread` and
`end = min((thread_id + 1) * (double)extent / nrthread, extent)`; the
conversion of the non-negative quotient to `int` truncates, which is the
floor, so both are natural-number divisions. -/

/-- First row of worker `thread_id` (source lines 102 and 132). -/
def range_start (thread_id extent nrthread : Nat) : Nat :=
  thread_id * extent / nrthread

/-- One past the last row of worker `thread_id` (source lines 103 and 133). -/
def range_end (thread_id extent nrthread : Nat) : Nat :=
  min ((thread_id + 1) * extent / nrthread) extent

/-! ## Loops and buffer accesses -/

/-- The loop `for (i = lo; i < lo + n; i++) s = body(i, s)`, stopping with
`none` as soon as an iteration fails. -/
def forLoop {σ : Type} (body : Nat → σ → Option σ) : Nat → Nat → σ → Option σ
  | 0, _, s => some s
  | n + 1, i, s => (body i s).bind (forLoop body n (i + 1))

/-- Read `grid[i][j]`. -/
def grid_get (g : Grid) (i j : Nat) : Option Nat :=
  (g[i]?).bind (fun row => row[j]?)

/-- Write `grid[i][j] = v`. -/
def grid_set (g : Grid) (i j v : Nat) : Option Grid :=
  match g[i]? with
  | none => none
  | some row => if j < row.length then some (g.set i (row.set j v)) else none

/-- Write `image->data[idx] = p`. -/
def pixel_set (image : ppm_image) (idx : Nat) (p : ppm_pixel) : Option ppm_image :=
  if idx < image.data.length then
    some { image with data := image.data.set idx p }
  else none

/-! ## Grid sampling (source lines 129 to 179) -/

/-- `unsigned char curr_color = (red + green + blue) / 3`: the mean of the
three channels, stored in a byte. -/
def curr_color (p : ppm_pixel) : Nat :=
  (p.red + p.green + p.blue) / 3 % 256

/-- The value the sampling loops store for a pixel:
`if (curr_color > sigma) 0 else 1`. -/
def binarize (sigma : Nat) (p : ppm_pixel) : Nat :=
  if curr_color p > sigma then 0 else 1

/-- The common body of the three sampling loops: read `data[idx]`, store its
binarization in `grid[i][j]`. -/
def sample_point (image : ppm_image) (sigma idx i j : Nat) (g : Grid) : Option Grid :=
  match image.data[idx]? with
  | none => none
  | some curr_pixel => grid_set g i j (binarize sigma curr_pixel)

/-- Pixel index read for the interior point `(i, j)` (line 138). -/
def interior_index (image : ppm_image) (step_x step_y i j : Nat) : Nat :=
  i * step_x * image.y + j * step_y

/-- Pixel index read for the boundary cell `grid[i][q]` (line 159). -/
def last_column_index (image : ppm_image) (step_x i : Nat) : Nat :=
  i * step_x * image.y + image.x - 1

/-- Pixel index read for the boundary cell `grid[p][j]` (line 170). -/
def last_row_index (image : ppm_image) (step_y j : Nat) : Nat :=
  (image.x - 1) * image.y + j * step_y

/-- Lines 136 to 148: the interior points of rows `start .. end - 1`. -/
def sample_interior (image : ppm_image) (step_x step_y sigma q start end_ : Nat)
    (grid : Grid) : Option Grid :=
  forLoop (fun i g =>
    forLoop (fun j g =>
      sample_point image sigma (interior_index image step_x step_y i j) i j g) q 0 g)
    (end_ - start) start grid

/-- Lines 158 to 168: the cells `grid[i][q]` for `i` in `start .. end - 1`. -/
def sample_last_column (image : ppm_image) (step_x sigma q start end_ : Nat)
    (grid : Grid) : Option Grid :=
  forLoop (fun i g => sample_point image sigma (last_column_index image step_x i) i q g)
    (end_ - start) start grid

/-- Lines 169 to 179: the cells `grid[p][j]` for `j` in `start .. end - 1`
(the loop runs over the worker's row range). -/
def sample_last_row (image : ppm_image) (step_y sigma p start end_ : Nat)
    (grid : Grid) : Option Grid :=
  forLoop (fun j g => sample_point image sigma (last_row_index image step_y j) p j g)
    (end_ - start) start grid

/-- The sampling pass of worker `thread_id` (lines 129 to 179). -/
def function_sample (image : ppm_image) (step_x step_y sigma thread_id nrthread : Nat)
    (grid : Grid) : Option Grid :=
  (sample_interior image step_x step_y sigma (image.y / step_y)
      (range_start thread_id (image.x / step_x) nrthread)
      (range_end thread_id (image.x / step_x) nrthread) grid).bind fun g1 =>
  (sample_last_column image step_x sigma (image.y / step_y)
      (range_start thread_id (image.x / step_x) nrthread)
      (range_end thread_id (image.x / step_x) nrthread) g1).bind fun g2 =>
  sample_last_row image step_y sigma (image.x / step_x)
      (range_start thread_id (image.x / step_x) nrthread)
      (range_end thread_id (image.x / step_x) nrthread) g2

/-- The sampling passes of workers `0 .. nrthread - 1`, one after the other. -/
def sample_all (image : ppm_image) (step_x step_y sigma nrthread : Nat)
    (grid : Grid) : Option Grid :=
  forLoop (fun t g => function_sample image step_x step_y sigma t nrthread g) nrthread 0 grid

/-! ## Marching (source lines 62 to 73 and 187 to 193) -/

/-- Source `update_image`: copy the contour tile onto the image at offset
`(x, y)`; the tile pixel is read at index `contour->x * i + j`. -/
def update_image (image contour : ppm_image) (x y : Nat) : Option ppm_image :=
  forLoop (fun i img =>
    forLoop (fun j img =>
      match contour.data[contour.x * i + j]? with
      | none => none
      | some px => pixel_set img ((x + i) * image.y + y + j) px) contour.y 0 img)
    contour.x 0 image

/-- Line 190: `unsigned char k = 8 * grid[i][j] + 4 * grid[i][j + 1]
+ 2 * grid[i + 1][j + 1] + 1 * grid[i + 1][j]`. -/
def cell_code (grid : Grid) (i j : Nat) : Option Nat :=
  match grid_get grid i j, grid_get grid i (j + 1), grid_get grid (i + 1) (j + 1),
      grid_get grid (i + 1) j with
  | some a, some b, some c, some d => some ((8 * a + 4 * b + 2 * c + 1 * d) % 256)
  | _, _, _, _ => none

/-- Lines 190 and 191: the body of the marching loop for cell `(i, j)`. -/
def march_cell (grid : Grid) (contour_map : List ppm_image) (step_x step_y i j : Nat)
    (image : ppm_image) : Option ppm_image :=
  match cell_code grid i j with
  | none => none
  | some k =>
    match contour_map[k]? with
    | none => none
    | some contour => update_image image contour (i * step_x) (j * step_y)

/-- Lines 187 to 193 for the rows `start .. end - 1`. -/
def march_rows (grid : Grid) (contour_map : List ppm_image) (step_x step_y q start end_ : Nat)
    (image : ppm_image) : Option ppm_image :=
  forLoop (fun i img =>
    forLoop (fun j img => march_cell grid contour_map step_x step_y i j img) q 0 img)
    (end_ - start) start image

/-- The marching pass of worker `thread_id` (lines 187 to 193, with `p`, `q`,
`start` and `end` of lines 129 to 133). -/
def function_march (grid : Grid) (contour_map : List ppm_image)
    (step_x step_y thread_id nrthread : Nat) (image : ppm_image) : Option ppm_image :=
  march_rows grid contour_map step_x step_y (image.y / step_y)
    (range_start thread_id (image.x / step_x) nrthread)
    (range_end thread_id (image.x / step_x) nrthread) image

/-- The marching passes of workers `0 .. nrthread - 1`, one after the other. -/
def march_all (grid : Grid) (contour_map : List ppm_image) (step_x step_y nrthread : Nat)
    (image : ppm_image) : Option ppm_image :=
  forLoop (fun t img => function_march grid contour_map step_x step_y t nrthread img)
    nrthread 0 image

/-- All sampling passes, then all marching passes: the final grid and canvas. -/
def sample_then_march (image : ppm_image) (contour_map : List ppm_image)
    (step_x step_y sigma nrthread : Nat) (grid : Grid) : Option (Grid × ppm_image) :=
  (sample_all image step_x step_y sigma nrthread grid).bind fun g =>
    (march_all g contour_map step_x step_y nrthread image).map fun img => (g, img)

/-! ## Shapes used in the statements -/

/-- The grid has `R` rows of `C` cells each. -/
def GridDims (g : Grid) (R C : Nat) : Prop :=
  g.length = R ∧ ∀ row ∈ g, row.length = C

instance (g : Grid) (R C : Nat) : Decidable (GridDims g R C) := by
  unfold GridDims
  exact inferInstance

/-- Every pixel index the three sampling loops compute, over the rows
`0 .. p - 1` that the workers share out, lies inside the pixel buffer. -/
def SampleReadsInBounds (image : ppm_image) (step_x step_y : Nat) : Prop :=
  (∀ i, i < image.x / step_x → ∀ j, j < image.y / step_y →
    interior_index image step_x step_y i j < image.data.length) ∧
  (∀ i, i < image.x / step_x → last_column_index image step_x i < image.data.length) ∧
  (∀ j, j < image.x / step_x → last_row_index image step_y j < image.data.length)

instance (image : ppm_image) (step_x step_y : Nat) :
    Decidable (SampleReadsInBounds image step_x step_y) := by
  unfold SampleReadsInBounds
  exact inferInstance

/-- The pixel the marching loop stamps at offset `(a, b)` of cell `(i, j)`:
`contour_map[k]->data[contour->x * a + b]` with `k` the code of the cell. -/
def stamped_pixel (grid : Grid) (contour_map : List ppm_image) (i j a b : Nat) :
    Option ppm_pixel :=
  match cell_code grid i j with
  | none => none
  | some k =>
    match contour_map[k]? with
    | none => none
    | some contour => contour.data[contour.x * a + b]?

/-- The configuration code of cell `(i, j)` as a number, before it is stored
in a byte: `8 * grid[i][j] + 4 * grid[i][j + 1] + 2 * grid[i + 1][j + 1]
+ 1 * grid[i + 1][j]`. -/
def corner_sum (grid : Grid) (i j : Nat) : Option Nat :=
  match grid_get grid i j, grid_get grid i (j + 1), grid_get grid (i + 1) (j + 1),
      grid_get grid (i + 1) j with
  | some a, some b, some c, some d => some (8 * a + 4 * b + 2 * c + 1 * d)
  | _, _, _, _ => none

/-- Every cell `(i, j)`, `i < p`, `j < q`, has its four grid corners inside
the grid and a code that selects a tile of the catalog, of size `step_x` by
`step_y`, whose buffer holds every index `update_image` reads. -/
def TilesFit (grid : Grid) (contour_map : List ppm_image) (step_x step_y p q : Nat) : Prop :=
  ∀ i, i < p → ∀ j, j < q → ∃ k contour, cell_code grid i j = some k ∧
    contour_map[k]? = some contour ∧ contour.x = step_x ∧ contour.y = step_y ∧
    ∀ a b, a < step_x → b < step_y → step_x * a + b < contour.data.length

/-! ## Access traces

The lists below collect, loop for loop, the buffer positions the source loops
touch. -/

/-- What the loop `for (i = lo; i < lo + n; i++)` collects when iteration `i`
contributes the list `f i`. -/
def loopList {α : Type} (f : Nat → List α) : Nat → Nat → List α
  | 0, _ => []
  | n + 1, i => f i ++ loopList f n (i + 1)

/-- The sampling steps of the three loops of lines 136 to 179 for the row
range `start .. end - 1`, in program order; a step is the pixel index it
reads, then the row and the column of the grid cell it writes. -/
def sample_ops (image : ppm_image) (step_x step_y p q start end_ : Nat) :
    List (Nat × Nat × Nat) :=
  loopList (fun i =>
    loopList (fun j => [(interior_index image step_x step_y i j, i, j)]) q 0)
    (end_ - start) start ++
  (loopList (fun i => [(last_column_index image step_x i, i, q)]) (end_ - start) start ++
   loopList (fun j => [(last_row_index image step_y j, p, j)]) (end_ - start) start)

/-- The sampling steps of worker `thread_id`. -/
def function_sample_ops (image : ppm_image) (step_x step_y thread_id nrthread : Nat) :
    List (Nat × Nat × Nat) :=
  sample_ops image step_x step_y (image.x / step_x) (image.y / step_y)
    (range_start thread_id (image.x / step_x) nrthread)
    (range_end thread_id (image.x / step_x) nrthread)

/-- The grid cell a sampling step writes. -/
def op_cell (op : Nat × Nat × Nat) : Nat × Nat := (op.2.1, op.2.2)

/-- The grid cells `(row, column)` worker `thread_id` writes while sampling. -/
def function_sample_writes (image : ppm_image) (step_x step_y thread_id nrthread : Nat) :
    List (Nat × Nat) :=
  (function_sample_ops image step_x step_y thread_id nrthread).map op_cell

/-- Run a list of sampling steps in order. -/
def run_ops (image : ppm_image) (sigma : Nat) : List (Nat × Nat × Nat) → Grid → Option Grid
  | [], g => some g
  | op :: rest, g =>
    (sample_point image sigma op.1 op.2.1 op.2.2 g).bind (run_ops image sigma rest)

/-- The grid cells the marching loop of lines 187 to 193 reads for the rows
`start .. end - 1`: the four corners of every cell, in the order of line 190. -/
def march_reads (q start end_ : Nat) : List (Nat × Nat) :=
  loopList (fun i =>
    loopList (fun j => [(i, j), (i, j + 1), (i + 1, j + 1), (i + 1, j)]) q 0)
    (end_ - start) start

/-- The grid cells worker `thread_id` reads while marching. -/
def function_march_reads (image : ppm_image) (step_x step_y thread_id nrthread : Nat) :
    List (Nat × Nat) :=
  march_reads (image.y / step_y)
    (range_start thread_id (image.x / step_x) nrthread)
    (range_end thread_id (image.x / step_x) nrthread)

/-- The indices of `image->data` that `update_image` writes (line 66). -/
def update_image_writes (image contour : ppm_image) (x y : Nat) : List Nat :=
  loopList (fun i => loopList (fun j => [(x + i) * image.y + y + j]) contour.y 0) contour.x 0

/-- The indices of `contour->data` that `update_image` reads (line 65). -/
def update_image_reads (contour : ppm_image) : List Nat :=
  loopList (fun i => loopList (fun j => [contour.x * i + j]) contour.y 0) contour.x 0

/-- The canvas indices the marching loop writes for the rows
`start .. end - 1`. -/
def march_writes (grid : Grid) (contour_map : List ppm_image)
    (step_x step_y q start end_ : Nat) (image : ppm_image) : List Nat :=
  loopList (fun i =>
    loopList (fun j =>
      match cell_code grid i j with
      | none => []
      | some k =>
        match contour_map[k]? with
        | none => []
        | some contour => update_image_writes image contour (i * step_x) (j * step_y)) q 0)
    (end_ - start) start

/-- The canvas indices worker `thread_id` writes while marching. -/
def function_march_writes (grid : Grid) (contour_map : List ppm_image)
    (step_x step_y thread_id nrthread : Nat) (image : ppm_image) : List Nat :=
  march_writes grid contour_map step_x step_y (image.y / step_y)
    (range_start thread_id (image.x / step_x) nrthread)
    (range_end thread_id (image.x / step_x) nrthread) image

/-! ## Downscale stage (source lines 102 to 122)

`sample_bicubic` lives in `helpers.c`; the pixel it returns for the target
position `(i, j)`, that is for `u = i / (x - 1)` and `v = j / (y - 1)`, is the
parameter `sample_bicubic image i j`. -/

/-- Line 107: `image->x > RESCALE_X || image->y > RESCALE_Y`. -/
def needs_rescale (image : ppm_image) : Bool :=
  decide (image.x > RESCALE_X) || decide (image.y > RESCALE_Y)

/-- Lines 109 to 119 for the rows `start .. end - 1` of the target canvas. -/
def rescale_rows (sample_bicubic : ppm_image → Nat → Nat → ppm_pixel)
    (image new_image : ppm_image) (start end_ : Nat) : Option ppm_image :=
  forLoop (fun i img =>
    forLoop (fun j img =>
      pixel_set img (i * new_image.y + j) (sample_bicubic image i j)) new_image.y 0 img)
    (end_ - start) start new_image

/-- The target-canvas indices the loop of lines 109 to 119 writes for the rows
`start .. end - 1`. -/
def rescale_writes (new_image : ppm_image) (start end_ : Nat) : List Nat :=
  loopList (fun i => loopList (fun j => [i * new_image.y + j]) new_image.y 0)
    (end_ - start) start

/-- The downscale stage of worker `thread_id` on the shared target canvas
`new_image`: the resampling loop when the source is too large, nothing
otherwise. -/
def function_rescale (sample_bicubic : ppm_image → Nat → Nat → ppm_pixel)
    (image : ppm_image) (thread_id nrthread : Nat) (new_image : ppm_image) :
    Option ppm_image :=
  if needs_rescale image then
    rescale_rows sample_bicubic image new_image
      (range_start thread_id new_image.x nrthread)
      (range_end thread_id new_image.x nrthread)
  else some new_image

/-- The target-canvas indices worker `thread_id` writes in its downscale stage. -/
def function_rescale_writes (image : ppm_image) (thread_id nrthread : Nat)
    (new_image : ppm_image) : List Nat :=
  if needs_rescale image then
    rescale_writes new_image
      (range_start thread_id new_image.x nrthread)
      (range_end thread_id new_image.x nrthread)
  else []

/-- The image `th->new_image` points to after the downscale stage: the shared
target canvas, or (line 121) the source image. -/
def function_canvas (image new_image : ppm_image) : ppm_image :=
  if needs_rescale image then new_image else image

/-- The downscale stages of workers `0 .. nrthread - 1` on the shared target. -/
def rescale_all (sample_bicubic : ppm_image → Nat → Nat → ppm_pixel)
    (image : ppm_image) (nrthread : Nat) (new_image : ppm_image) : Option ppm_image :=
  forLoop (fun t img => function_rescale sample_bicubic image t nrthread img)
    nrthread 0 new_image

/-- The run of `main` from thread creation to `write_ppm`: all downscale
stages, then sampling and marching on the canvas of worker `nr - 1` (line 290),
with `STEP` and `SIGMA`; the result is the final grid and the image written. -/
def main_run (sample_bicubic : ppm_image → Nat → Nat → ppm_pixel)
    (image : ppm_image) (contour_map : List ppm_image) (nr : Nat)
    (new_image : ppm_image) (grid : Grid) : Option (Grid × ppm_image) :=
  (rescale_all sample_bicubic image nr new_image).bind fun target =>
    sample_then_march (function_canvas image target) contour_map STEP STEP SIGMA nr grid

/-! ## Exit paths of `main` -/

/-- The stages of `main` that the exit paths distinguish. -/
inductive main_step where
  | usage_message
  | init_contour_map
  | read_ppm
  | alloc_grid
  | create_threads
  | join_threads
  | write_ppm
  | free_resources
deriving DecidableEq, Repr

/-- The stages `main` goes through and its exit code, for an argument count
and the outcome of the steps that can fail: the allocation in
`init_contour_map`, the allocation of the grid, `pthread_create` and
`pthread_join`. -/
def main (argc : Int) (map_ok grid_ok create_ok join_ok : Bool) : List main_step × Int :=
  if argc < 4 then ([main_step.usage_message], 1)
  else if !map_ok then ([main_step.init_contour_map], 1)
  else if !grid_ok then
    ([main_step.init_contour_map, main_step.read_ppm, main_step.alloc_grid], 1)
  else if !create_ok then
    ([main_step.init_contour_map, main_step.read_ppm, main_step.alloc_grid,
      main_step.create_threads], -1)
  else if !join_ok then
    ([main_step.init_contour_map, main_step.read_ppm, main_step.alloc_grid,
      main_step.create_threads, main_step.join_threads], -1)
  else
    ([main_step.init_contour_map, main_step.read_ppm, main_step.alloc_grid,
      main_step.create_threads, main_step.join_threads, main_step.write_ppm,
      main_step.free_resources], 0)

/-! ## Threads and the barrier

The workers run concurrently; `main` initialises one barrier for `nr` threads
(line 232) and every worker calls `pthread_barrier_wait` once (line 125),
after its downscale loop and before its sampling loops. The barrier follows
POSIX: a thread that calls `pthread_barrier_wait` is blocked until the number
of blocked callers reaches the count of the barrier, and then all of them
continue. -/

/-- What a worker does to the shared canvas up to the end of its sampling
pass, and its call of the barrier. -/
inductive worker_step where
  | downscale_write (idx : Nat)
  | barrier_wait
  | sample_read (idx : Nat)
deriving DecidableEq, Repr

/-- The steps of worker `thread_id` in the order of `function`: the writes of
its downscale loop, the barrier, the pixel reads of its three sampling loops
(on the canvas it uses after the downscale stage). The marching pass, which
follows, neither writes in the downscale loop nor calls the barrier. -/
def worker_program (image new_image : ppm_image) (step_x step_y thread_id nrthread : Nat) :
    List worker_step :=
  (function_rescale_writes image thread_id nrthread new_image).map worker_step.downscale_write
    ++ worker_step.barrier_wait ::
    ((function_sample_ops (function_canvas image new_image) step_x step_y thread_id
        nrthread).map fun op => worker_step.sample_read op.1)

/-- A thread: whether it is blocked inside `pthread_barrier_wait`, and the
steps it still has to run. -/
structure thread_state where
  blocked : Bool
  rest : List worker_step
deriving DecidableEq, Repr

/-- All threads blocked at the barrier continue. -/
def release (ths : List thread_state) : List thread_state :=
  ths.map fun th => ⟨false, th.rest⟩

/-- The scheduler lets thread `t` make one step; the state is the threads and
the steps made so far, each with the thread that made it. A thread that is
blocked or has finished does nothing. A thread that calls the barrier becomes
blocked, and when `count` threads are blocked all of them are released. -/
def sched_step (count : Nat) (st : List thread_state × List (Nat × worker_step)) (t : Nat) :
    List thread_state × List (Nat × worker_step) :=
  match st.1[t]? with
  | none => st
  | some th =>
    if th.blocked then st
    else
      match th.rest with
      | [] => st
      | worker_step.barrier_wait :: r =>
        (if (st.1.set t ⟨true, r⟩).countP (fun th => th.blocked) = count then
            release (st.1.set t ⟨true, r⟩)
          else st.1.set t ⟨true, r⟩,
          st.2 ++ [(t, worker_step.barrier_wait)])
      | s :: r => (st.1.set t ⟨false, r⟩, st.2 ++ [(t, s)])

/-- An execution: the scheduler picks the threads of `sched` one after the
other. -/
def run_schedule (count : Nat) :
    List thread_state × List (Nat × worker_step) → List Nat →
      List thread_state × List (Nat × worker_step)
  | st, [] => st
  | st, t :: sched => run_schedule count (sched_step count st t) sched

/-- The state in which `main` has created the `nr` workers: nobody is
blocked, nothing has been done. -/
def initial_state (image new_image : ppm_image) (step_x step_y nr : Nat) :
    List thread_state × List (Nat × worker_step) :=
  ((List.range nr).map fun t => ⟨false, worker_program image new_image step_x step_y t nr⟩, [])

def is_downscale_write : worker_step → Bool
  | worker_step.downscale_write _ => true
  | _ => false

def is_sample_read : worker_step → Bool
  | worker_step.sample_read _ => true
  | _ => false

/-- Steps after the barrier: sampling reads only. -/
def after_barrier (l : List worker_step) : Bool :=
  l.all is_sample_read

/-- Steps of a thread that has not called the barrier yet: downscale writes,
the barrier, then steps after the barrier. -/
def before_barrier : List worker_step → Bool
  | [] => false
  | worker_step.downscale_write _ :: r => before_barrier r
  | worker_step.barrier_wait :: r => after_barrier r
  | worker_step.sample_read _ :: _ => false

/-- No sampling read is followed, later in the execution, by a downscale
write. -/
def reads_after_writes (events : List (Nat × worker_step)) : Prop :=
  events.Pairwise fun a b => ¬ (is_sample_read a.2 = true ∧ is_downscale_write b.2 = true)

/-- The barrier has not let anybody through: every thread is blocked in it or
has not reached it, and no sampling read has been made. -/
def barrier_closed (N : Nat) (st : List thread_state × List (Nat × worker_step)) : Prop :=
  st.1.length = N ∧
  (∀ th ∈ st.1, (th.blocked = true ∧ after_barrier th.rest = true) ∨
    (th.blocked = false ∧ before_barrier th.rest = true)) ∧
  ∀ e ∈ st.2, is_sample_read e.2 = false

/-- The barrier has let everybody through: every thread runs steps after the
barrier. -/
def barrier_passed (st : List thread_state × List (Nat × worker_step)) : Prop :=
  (∀ th ∈ st.1, th.blocked = false ∧ after_barrier th.rest = true) ∧
  reads_after_writes st.2

/-! ## Concrete inputs -/

/-- A freshly allocated grid of `R` rows and `C` columns in which every byte
holds `v`. -/
def fresh_grid (v R C : Nat) : Grid :=
  List.replicate R (List.replicate C v)

/-- An image of `x` rows and `y` columns in which every channel is `v`. -/
def solid (x y v : Nat) : ppm_image :=
  ⟨x, y, List.replicate (x * y) ⟨v, v, v⟩⟩

/-- A catalog of 16 square tiles; every pixel of tile `k` is `(k, k, k)`. -/
def catalog_flat (step : Nat) : List ppm_image :=
  (List.range CONTOUR_CONFIG_COUNT).map fun k => solid step step k

/-- A catalog of 16 tiles of size 2 by 2; pixel number `m` of tile `k` is
`(k, m, 0)`. -/
def catalog_2x2 : List ppm_image :=
  (List.range CONTOUR_CONFIG_COUNT).map fun k =>
    ⟨2, 2, [⟨k, 0, 0⟩, ⟨k, 1, 0⟩, ⟨k, 2, 0⟩, ⟨k, 3, 0⟩]⟩

/-- A binary grid of 3 rows and 3 columns. -/
def grid_3x3 : Grid := [[0, 1, 0], [1, 1, 0], [0, 0, 1]]

/-- A canvas of 2 rows and 2 columns with bright and dark pixels. -/
def canvas_2x2 : ppm_image :=
  ⟨2, 2, [⟨255, 255, 255⟩, ⟨0, 0, 0⟩, ⟨10, 20, 30⟩, ⟨250, 250, 250⟩]⟩

/-- A white canvas of 8 rows and 16 columns whose pixel at row 0, column 7 is
black. -/
def canvas_8x16 : ppm_image :=
  ⟨8, 16, (solid 8 16 255).data.set 7 ⟨0, 0, 0⟩⟩

/-- A tile of 2 rows and 3 columns; pixel number `m` of its buffer is
`(m, m, m)`. -/
def tile_2x3 : ppm_image :=
  ⟨2, 3, [⟨0, 0, 0⟩, ⟨1, 1, 1⟩, ⟨2, 2, 2⟩, ⟨3, 3, 3⟩, ⟨4, 4, 4⟩, ⟨5, 5, 5⟩]⟩

/-- A tile of 3 rows and 2 columns; pixel number `m` of its buffer is
`(m, m, m)`. -/
def tile_3x2 : ppm_image :=
  ⟨3, 2, [⟨0, 0, 0⟩, ⟨1, 1, 1⟩, ⟨2, 2, 2⟩, ⟨3, 3, 3⟩, ⟨4, 4, 4⟩, ⟨5, 5, 5⟩]⟩

/-- An all-white canvas of 16 by 16 pixels: with step 8 it has `P = Q = 2`. -/
def canvas_16x16 : ppm_image := solid 16 16 255

/-! ## Row partition: theorems -/

theorem range_start_le (t extent N : Nat) (ht : t ≤ N) :
    range_start t extent N ≤ extent := by
  unfold range_start
  apply Nat.div_le_of_le_mul
  exact Nat.mul_le_mul_right extent ht

theorem range_start_mono (t u extent N : Nat) (h : t ≤ u) :
    range_start t extent N ≤ range_start u extent N := by
  unfold range_start
  exact Nat.div_le_div_right (Nat.mul_le_mul_right extent h)

theorem range_start_zero (extent N : Nat) : range_start 0 extent N = 0 := by
  simp [range_start]

theorem range_start_last (extent N : Nat) (hN : 1 ≤ N) : range_start N extent N = extent := by
  unfold range_start
  exact Nat.mul_div_cancel_left extent (by omega)

/-- For a worker `t < N` the clamp of `min` is idle: its range ends where the
next one starts. -/
theorem range_end_eq_start_succ (t extent N : Nat) (ht : t < N) :
    range_end t extent N = range_start (t + 1) extent N := by
  have h := range_start_le (t + 1) extent N ht
  unfold range_end min
  unfold range_start at h
  split
  · rfl
  · unfold range_start; omega

theorem range_start_le_end (t extent N : Nat) (ht : t < N) :
    range_start t extent N ≤ range_end t extent N := by
  rw [range_end_eq_start_succ t extent N ht]
  exact range_start_mono _ _ _ _ (by omega)

theorem range_end_le (t extent N : Nat) : range_end t extent N ≤ extent := by
  unfold range_end min
  split <;> omega

theorem range_cover_aux (extent N r : Nat) :
    ∀ m, m ≤ N → r < range_start m extent N →
      ∃ t, t < m ∧ range_start t extent N ≤ r ∧ r < range_end t extent N := by
  intro m
  induction m with
  | zero =>
    intro _ h
    rw [range_start_zero] at h
    omega
  | succ m ih =>
    intro hm h
    by_cases hlt : r < range_start m extent N
    · obtain ⟨t, ht, h1, h2⟩ := ih (by omega) hlt
      exact ⟨t, by omega, h1, h2⟩
    · refine ⟨m, by omega, by omega, ?_⟩
      rw [range_end_eq_start_succ m extent N (by omega)]
      exact h

/-- C1. For every `extent` and every thread count `N ≥ 1`, the ranges
`[range_start t, range_end t)` of the workers `t < N` are pairwise disjoint
and their union is exactly `[0, extent)`. -/
theorem partition_disjoint_cover (extent N : Nat) (hN : 1 ≤ N) :
    (∀ t u, t < N → u < N → t ≠ u → ∀ r,
        ¬ (range_start t extent N ≤ r ∧ r < range_end t extent N ∧
           range_start u extent N ≤ r ∧ r < range_end u extent N)) ∧
    (∀ r, r < extent ↔
        ∃ t, t < N ∧ range_start t extent N ≤ r ∧ r < range_end t extent N) := by
  constructor
  · intro t u ht hu hne r ⟨h1, h2, h3, h4⟩
    rw [range_end_eq_start_succ t extent N ht] at h2
    rw [range_end_eq_start_succ u extent N hu] at h4
    rcases Nat.lt_or_gt_of_ne hne with h | h
    · have := range_start_mono (t + 1) u extent N h
      omega
    · have := range_start_mono (u + 1) t extent N h
      omega
  · intro r
    constructor
    · intro hr
      have h := range_cover_aux extent N r N (Nat.le_refl N)
        (by rw [range_start_last extent N hN]; exact hr)
      obtain ⟨t, ht, h1, h2⟩ := h
      exact ⟨t, ht, h1, h2⟩
    · rintro ⟨t, _, _, h2⟩
      have := range_end_le t extent N
      omega

/-- Witness for C1: ten rows shared by three workers. -/
theorem partition_disjoint_cover_witness :
    (∀ t u, t < 3 → u < 3 → t ≠ u → ∀ r,
        ¬ (range_start t 10 3 ≤ r ∧ r < range_end t 10 3 ∧
           range_start u 10 3 ≤ r ∧ r < range_end u 10 3)) ∧
    (∀ r, r < 10 ↔ ∃ t, t < 3 ∧ range_start t 10 3 ≤ r ∧ r < range_end t 10 3) :=
  partition_disjoint_cover 10 3 (by decide)

/-! ## Loop rule and buffer lemmas -/

/-- Invariant rule for `forLoop`: an invariant that every iteration in range
re-establishes (without failing) holds at the end, and the loop returns. -/
theorem forLoop_rule {σ : Type} (body : Nat → σ → Option σ) (Inv : Nat → σ → Prop) :
    ∀ (n lo : Nat) (s : σ), Inv lo s →
      (∀ i s, lo ≤ i → i < lo + n → Inv i s → ∃ s', body i s = some s' ∧ Inv (i + 1) s') →
      ∃ s', forLoop body n lo s = some s' ∧ Inv (lo + n) s' := by
  intro n
  induction n with
  | zero =>
    intro lo s h0 _
    exact ⟨s, rfl, by simpa using h0⟩
  | succ n ih =>
    intro lo s h0 hstep
    obtain ⟨s1, hb, h1⟩ := hstep lo s (Nat.le_refl lo) (by omega) h0
    obtain ⟨s2, hl, h2⟩ := ih (lo + 1) s1 h1 (fun i t hi1 hi2 hinv =>
      hstep i t (by omega) (by omega) hinv)
    refine ⟨s2, ?_, ?_⟩
    · simp [forLoop, hb, hl]
    · have e : lo + (n + 1) = lo + 1 + n := by omega
      rw [e]
      exact h2

/-- A write inside the grid succeeds, keeps the shape and changes one cell. -/
theorem grid_set_spec (g : Grid) (R C i j v : Nat) (hd : GridDims g R C)
    (hi : i < R) (hj : j < C) :
    ∃ g', grid_set g i j v = some g' ∧ GridDims g' R C ∧
      ∀ a b, grid_get g' a b = if a = i ∧ b = j then some v else grid_get g a b := by
  obtain ⟨hlen, hrow⟩ := hd
  have hi2 : i < g.length := by omega
  have hr : (g[i]).length = C := hrow _ (List.getElem_mem hi2)
  have hj2 : j < (g[i]).length := by omega
  refine ⟨g.set i ((g[i]).set j v), ?_, ⟨?_, ?_⟩, ?_⟩
  · simp [grid_set, List.getElem?_eq_getElem hi2, hj2]
  · simp [hlen]
  · intro row hmem
    rcases List.mem_or_eq_of_mem_set hmem with h | h
    · exact hrow row h
    · rw [h, List.length_set]
      exact hr
  · intro a b
    unfold grid_get
    rw [List.getElem?_set]
    by_cases ha : i = a
    · subst ha
      simp only [hi2, if_true, Option.some_bind, true_and]
      rw [List.getElem?_set]
      by_cases hb : j = b
      · subst hb
        simp [hj2]
      · have hb2 : ¬ b = j := fun h => hb h.symm
        simp [hb, hb2, List.getElem?_eq_getElem hi2]
    · have ha2 : ¬ a = i := fun h => ha h.symm
      simp [ha, ha2]

/-- One sampling step inside both buffers. -/
theorem sample_point_spec (image : ppm_image) (sigma idx i j : Nat) (g : Grid) (R C : Nat)
    (hd : GridDims g R C) (hidx : idx < image.data.length) (hi : i < R) (hj : j < C) :
    ∃ g', sample_point image sigma idx i j g = some g' ∧ GridDims g' R C ∧
      ∀ a b, grid_get g' a b =
        if a = i ∧ b = j then (image.data[idx]?).map (binarize sigma) else grid_get g a b := by
  obtain ⟨g', h1, h2, h3⟩ := grid_set_spec g R C i j (binarize sigma (image.data[idx])) hd hi hj
  refine ⟨g', ?_, h2, ?_⟩
  · simp [sample_point, List.getElem?_eq_getElem hidx, h1]
  · intro a b
    rw [h3 a b]
    simp [List.getElem?_eq_getElem hidx]

/-- A sampling loop whose iterations hit pairwise different cells, all inside
the buffers: it returns, every cell it hits holds the binarization of the
pixel read for it, and every other cell is unchanged. -/
theorem sample_loop_spec (image : ppm_image) (sigma : Nat) (idx r c : Nat → Nat)
    (R C n lo : Nat) (g : Grid) (hd : GridDims g R C)
    (hb : ∀ k, lo ≤ k → k < lo + n → idx k < image.data.length ∧ r k < R ∧ c k < C)
    (hinj : ∀ k k', lo ≤ k → k < k' → k' < lo + n → ¬ (r k = r k' ∧ c k = c k')) :
    ∃ g', forLoop (fun k g => sample_point image sigma (idx k) (r k) (c k) g) n lo g = some g' ∧
      GridDims g' R C ∧
      (∀ k, lo ≤ k → k < lo + n →
        grid_get g' (r k) (c k) = (image.data[idx k]?).map (binarize sigma)) ∧
      (∀ a b, (∀ k, lo ≤ k → k < lo + n → ¬ (r k = a ∧ c k = b)) →
        grid_get g' a b = grid_get g a b) := by
  have h := forLoop_rule (fun k g => sample_point image sigma (idx k) (r k) (c k) g)
    (fun m s => GridDims s R C ∧
      (∀ k, lo ≤ k → k < m →
        grid_get s (r k) (c k) = (image.data[idx k]?).map (binarize sigma)) ∧
      (∀ a b, (∀ k, lo ≤ k → k < m → ¬ (r k = a ∧ c k = b)) →
        grid_get s a b = grid_get g a b))
    n lo g ⟨hd, fun k h1 h2 => by omega, fun a b _ => rfl⟩
    (by
      intro i s hi1 hi2 ⟨hds, hw, hf⟩
      obtain ⟨hb1, hb2, hb3⟩ := hb i hi1 hi2
      obtain ⟨s', e1, e2, e3⟩ := sample_point_spec image sigma (idx i) (r i) (c i) s R C
        hds hb1 hb2 hb3
      refine ⟨s', e1, e2, ?_, ?_⟩
      · intro k hk1 hk2
        rw [e3]
        by_cases hki : k = i
        · subst hki
          simp
        · have hne : ¬ (r k = r i ∧ c k = c i) := hinj k i hk1 (by omega) hi2
          rw [if_neg hne]
          exact hw k hk1 (by omega)
      · intro a b hab
        rw [e3]
        have hne : ¬ (a = r i ∧ b = c i) := fun h =>
          hab i hi1 (by omega) ⟨h.1.symm, h.2.symm⟩
        rw [if_neg hne]
        exact hf a b (fun k hk1 hk2 => hab k hk1 (by omega)))
  obtain ⟨g', e1, e2, e3, e4⟩ := h
  exact ⟨g', e1, e2, e3, e4⟩

/-- The interior loop for rows `s .. e - 1`. -/
theorem sample_interior_spec (image : ppm_image) (step_x step_y sigma q s e : Nat)
    (g : Grid) (R C : Nat) (hd : GridDims g R C) (hse : s ≤ e) (heR : e ≤ R) (hqC : q ≤ C)
    (hb : ∀ i j, i < e → j < q → interior_index image step_x step_y i j < image.data.length) :
    ∃ g', sample_interior image step_x step_y sigma q s e g = some g' ∧ GridDims g' R C ∧
      ∀ a b, grid_get g' a b =
        if s ≤ a ∧ a < e ∧ b < q then
          (image.data[interior_index image step_x step_y a b]?).map (binarize sigma)
        else grid_get g a b := by
  have h := forLoop_rule
    (fun i g => forLoop (fun j g =>
      sample_point image sigma (interior_index image step_x step_y i j) i j g) q 0 g)
    (fun m t => GridDims t R C ∧
      ∀ a b, grid_get t a b =
        if s ≤ a ∧ a < m ∧ b < q then
          (image.data[interior_index image step_x step_y a b]?).map (binarize sigma)
        else grid_get g a b)
    (e - s) s g
    ⟨hd, fun a b => by
      have : ¬ (s ≤ a ∧ a < s ∧ b < q) := by omega
      rw [if_neg this]⟩
    (by
      intro i t hi1 hi2 ⟨hdt, hc⟩
      obtain ⟨t', f1, f2, f3, f4⟩ := sample_loop_spec image sigma
        (fun j => interior_index image step_x step_y i j) (fun _ => i) (fun j => j)
        R C q 0 t hdt
        (fun k _ hk => ⟨hb i k (by omega) (by omega), by beta_reduce; omega,
          by beta_reduce; omega⟩)
        (fun k k' _ hk _ => by beta_reduce; omega)
      refine ⟨t', f1, f2, ?_⟩
      intro a b
      by_cases hab : a = i ∧ b < q
      · obtain ⟨ha, hbq⟩ := hab
        subst ha
        have := f3 b (Nat.zero_le b) (by omega)
        beta_reduce at this
        rw [this, if_pos ⟨hi1, by omega, hbq⟩]
      · rw [f4 a b (fun k _ hk => by omega), hc a b]
        by_cases h1 : s ≤ a ∧ a < i ∧ b < q
        · rw [if_pos h1, if_pos (by omega)]
        · rw [if_neg h1, if_neg (by omega)])
  obtain ⟨g', e1, e2, e3⟩ := h
  refine ⟨g', e1, e2, ?_⟩
  have hs : s + (e - s) = e := by omega
  rw [hs] at e3
  exact e3

/-- The three sampling loops of one worker with row range `s .. e - 1`, when
every access is inside its buffer: the worker returns, and the grid changes
exactly at the interior cells of its rows, at `grid[i][q]` for its rows `i`,
and at `grid[p][j]` for `j` in its row range. -/
theorem sample_range_spec (image : ppm_image) (step_x step_y sigma p q s e : Nat)
    (g : Grid) (R C : Nat) (hd : GridDims g R C) (hse : s ≤ e) (hep : e ≤ p)
    (hpR : p < R) (hqC : q < C) (hpC : p ≤ C)
    (hb1 : ∀ i j, i < p → j < q → interior_index image step_x step_y i j < image.data.length)
    (hb2 : ∀ i, i < p → last_column_index image step_x i < image.data.length)
    (hb3 : ∀ j, j < p → last_row_index image step_y j < image.data.length) :
    ∃ g', ((sample_interior image step_x step_y sigma q s e g).bind fun g1 =>
        (sample_last_column image step_x sigma q s e g1).bind fun g2 =>
          sample_last_row image step_y sigma p s e g2) = some g' ∧
      GridDims g' R C ∧
      ∀ a b, grid_get g' a b =
        if s ≤ a ∧ a < e ∧ b < q then
          (image.data[interior_index image step_x step_y a b]?).map (binarize sigma)
        else if s ≤ a ∧ a < e ∧ b = q then
          (image.data[last_column_index image step_x a]?).map (binarize sigma)
        else if a = p ∧ s ≤ b ∧ b < e then
          (image.data[last_row_index image step_y b]?).map (binarize sigma)
        else grid_get g a b := by
  obtain ⟨g1, e1, d1, c1⟩ := sample_interior_spec image step_x step_y sigma q s e g R C hd hse
    (by omega) (by omega) (fun i j hi hj => hb1 i j (by omega) hj)
  have hs : s + (e - s) = e := by omega
  obtain ⟨g2, e2, d2, w2, f2⟩ := sample_loop_spec image sigma
    (fun i => last_column_index image step_x i) (fun i => i) (fun _ => q) R C (e - s) s g1 d1
    (fun k _ hk => ⟨hb2 k (by omega), by beta_reduce; omega, by beta_reduce; omega⟩)
    (fun k k' _ hk _ => by beta_reduce; omega)
  obtain ⟨g3, e3, d3, w3, f3⟩ := sample_loop_spec image sigma
    (fun j => last_row_index image step_y j) (fun _ => p) (fun j => j) R C (e - s) s g2 d2
    (fun k _ hk => ⟨hb3 k (by omega), by beta_reduce; omega, by beta_reduce; omega⟩)
    (fun k k' _ hk _ => by beta_reduce; omega)
  refine ⟨g3, ?_, d3, ?_⟩
  · rw [e1]
    simp only [Option.some_bind]
    unfold sample_last_column
    rw [e2]
    simp only [Option.some_bind]
    unfold sample_last_row
    exact e3
  · intro a b
    by_cases h3 : a = p ∧ s ≤ b ∧ b < e
    · obtain ⟨ha, hb⟩ := h3
      subst ha
      have := w3 b hb.1 (by omega)
      beta_reduce at this
      rw [this, if_neg (by omega), if_neg (by omega), if_pos ⟨rfl, hb⟩]
    · rw [f3 a b (fun k hk1 hk2 => by omega)]
      by_cases h2 : s ≤ a ∧ a < e ∧ b = q
      · obtain ⟨ha1, ha2, hbq⟩ := h2
        subst hbq
        have := w2 a ha1 (by omega)
        beta_reduce at this
        rw [this, if_neg (by omega), if_pos ⟨ha1, ha2, rfl⟩]
      · rw [f2 a b (fun k hk1 hk2 => by omega), c1 a b]
        by_cases h1 : s ≤ a ∧ a < e ∧ b < q
        · rw [if_pos h1, if_pos h1]
        · rw [if_neg h1, if_neg h1, if_neg h2, if_neg h3]

/-- The sampling passes of all `N` workers, when every access is inside its
buffer: they return a grid of the same shape whose cells are the interior
samples (rows and columns below `p` and `q`), the `grid[i][q]` samples for
`i < p`, the `grid[p][j]` samples for `j < p`, and are unchanged elsewhere. -/
theorem sample_all_spec (image : ppm_image) (step_x step_y sigma N : Nat) (g : Grid)
    (R C : Nat) (hN : 1 ≤ N) (hd : GridDims g R C)
    (hpR : image.x / step_x < R) (hqC : image.y / step_y < C) (hpC : image.x / step_x ≤ C)
    (hin : SampleReadsInBounds image step_x step_y) :
    ∃ g', sample_all image step_x step_y sigma N g = some g' ∧ GridDims g' R C ∧
      ∀ a b, grid_get g' a b =
        if a < image.x / step_x ∧ b < image.y / step_y then
          (image.data[interior_index image step_x step_y a b]?).map (binarize sigma)
        else if a < image.x / step_x ∧ b = image.y / step_y then
          (image.data[last_column_index image step_x a]?).map (binarize sigma)
        else if a = image.x / step_x ∧ b < image.x / step_x then
          (image.data[last_row_index image step_y b]?).map (binarize sigma)
        else grid_get g a b := by
  obtain ⟨hb1, hb2, hb3⟩ := hin
  have h := forLoop_rule
    (fun t g => function_sample image step_x step_y sigma t N g)
    (fun t s => GridDims s R C ∧
      ∀ a b, grid_get s a b =
        if a < range_start t (image.x / step_x) N ∧ b < image.y / step_y then
          (image.data[interior_index image step_x step_y a b]?).map (binarize sigma)
        else if a < range_start t (image.x / step_x) N ∧ b = image.y / step_y then
          (image.data[last_column_index image step_x a]?).map (binarize sigma)
        else if a = image.x / step_x ∧ b < range_start t (image.x / step_x) N then
          (image.data[last_row_index image step_y b]?).map (binarize sigma)
        else grid_get g a b)
    N 0 g
    ⟨hd, fun a b => by
      rw [range_start_zero]
      rw [if_neg (by omega), if_neg (by omega), if_neg (by omega)]⟩
    (by
      intro t s _ ht ⟨hds, hc⟩
      have htN : t < N := by omega
      have hse := range_start_le_end t (image.x / step_x) N htN
      have hep := range_end_le t (image.x / step_x) N
      have hes := range_end_eq_start_succ t (image.x / step_x) N htN
      obtain ⟨s', e1, e2, e3⟩ := sample_range_spec image step_x step_y sigma
        (image.x / step_x) (image.y / step_y)
        (range_start t (image.x / step_x) N) (range_end t (image.x / step_x) N)
        s R C hds hse hep hpR hqC hpC (fun i j hi hj => hb1 i hi j hj) hb2 hb3
      refine ⟨s', e1, e2, ?_⟩
      intro a b
      rw [e3 a b, hc a b, ← hes]
      split_ifs <;> first | rfl | omega)
  obtain ⟨g', e1, e2, e3⟩ := h
  refine ⟨g', e1, e2, ?_⟩
  intro a b
  have := e3 a b
  rw [Nat.zero_add, range_start_last _ _ hN] at this
  exact this

/-- On a canvas with no more cell rows than cell columns and `x ≤ step_x * y`
(every square canvas, in particular) the sampling loops read inside the
pixel buffer. -/
theorem sampleReadsInBounds_of_shape (image : ppm_image) (step_x step_y : Nat)
    (hsx : 0 < step_x) (hsy : 0 < step_y) (hlen : image.data.length = image.x * image.y)
    (hPQ : image.x / step_x ≤ image.y / step_y) (hxy : image.x ≤ step_x * image.y) :
    SampleReadsInBounds image step_x step_y := by
  have hrow : ∀ i, i < image.x / step_x →
      i * step_x * image.y + step_x * image.y ≤ image.x * image.y := by
    intro i hi
    have h1 : (i + 1) * step_x ≤ image.x :=
      le_trans (Nat.mul_le_mul_right step_x hi) (Nat.div_mul_le_self image.x step_x)
    have h2 := Nat.mul_le_mul_right image.y h1
    have h3 : (i + 1) * step_x * image.y = i * step_x * image.y + step_x * image.y := by ring
    omega
  have hcol : ∀ j, j < image.y / step_y → j * step_y + step_y ≤ image.y := by
    intro j hj
    have h1 : (j + 1) * step_y ≤ image.y :=
      le_trans (Nat.mul_le_mul_right step_y hj) (Nat.div_mul_le_self image.y step_y)
    have h3 : (j + 1) * step_y = j * step_y + step_y := by ring
    omega
  have hy : image.y ≤ step_x * image.y := Nat.le_mul_of_pos_left image.y hsx
  refine ⟨?_, ?_, ?_⟩
  · intro i hi j hj
    have := hrow i hi
    have := hcol j hj
    unfold interior_index
    omega
  · intro i hi
    have := hrow i hi
    have hx : 0 < image.x := by
      rcases Nat.eq_zero_or_pos image.x with h | h
      · rw [h, Nat.zero_div] at hi
        omega
      · exact h
    unfold last_column_index
    omega
  · intro j hj
    have := hcol j (by omega)
    have hx : 0 < image.x := by
      rcases Nat.eq_zero_or_pos image.x with h | h
      · rw [h, Nat.zero_div] at hj
        omega
      · exact h
    have h4 : (image.x - 1) * image.y + image.y = image.x * image.y := by
      have : image.x - 1 + 1 = image.x := by omega
      calc (image.x - 1) * image.y + image.y = (image.x - 1 + 1) * image.y := by ring
        _ = image.x * image.y := by rw [this]
    unfold last_row_index
    omega

/-- The mean of three bytes fits in a byte. -/
theorem curr_color_eq_mean (px : ppm_pixel)
    (h : px.red < 256 ∧ px.green < 256 ∧ px.blue < 256) :
    (px.red + px.green + px.blue) / 3 ≤ 255 ∧
      curr_color px = (px.red + px.green + px.blue) / 3 := by
  unfold curr_color
  omega

/-- C3. On a canvas whose sampling reads stay inside the pixel buffer, the
sampling passes of all `N ≥ 1` workers return, and every interior cell
`grid[i][j]`, `i < P`, `j < Q`, is 0 if the mean `(red + green + blue) / 3` of
the pixel at row `i * step_x`, column `j * step_y` exceeds `SIGMA` (200) and 1
otherwise; the mean is at most 255, so the byte store loses nothing. -/
theorem sample_all_interior (image : ppm_image) (step_x step_y N : Nat) (g : Grid)
    (R C : Nat) (hN : 1 ≤ N)
    (hbytes : ∀ px ∈ image.data, px.red < 256 ∧ px.green < 256 ∧ px.blue < 256)
    (hd : GridDims g R C)
    (hpR : image.x / step_x < R) (hqC : image.y / step_y < C) (hpC : image.x / step_x ≤ C)
    (hin : SampleReadsInBounds image step_x step_y) :
    ∃ g', sample_all image step_x step_y SIGMA N g = some g' ∧
      ∀ i j, i < image.x / step_x → j < image.y / step_y →
        ∃ px, image.data[i * step_x * image.y + j * step_y]? = some px ∧
          (px.red + px.green + px.blue) / 3 ≤ 255 ∧
          grid_get g' i j =
            some (if (px.red + px.green + px.blue) / 3 > SIGMA then 0 else 1) := by
  obtain ⟨g', e1, _, e3⟩ := sample_all_spec image step_x step_y SIGMA N g R C hN hd hpR hqC hpC hin
  refine ⟨g', e1, ?_⟩
  intro i j hi hj
  have hidx : i * step_x * image.y + j * step_y < image.data.length := hin.1 i hi j hj
  refine ⟨image.data[i * step_x * image.y + j * step_y], List.getElem?_eq_getElem hidx, ?_, ?_⟩
  · exact (curr_color_eq_mean _ (hbytes _ (List.getElem_mem hidx))).1
  · rw [e3 i j, if_pos ⟨hi, hj⟩]
    unfold interior_index
    rw [List.getElem?_eq_getElem hidx]
    simp only [Option.map_some', binarize]
    rw [(curr_color_eq_mean _ (hbytes _ (List.getElem_mem hidx))).2]

/-! ## Marching: lemmas -/

/-- A write inside the pixel buffer succeeds and changes one pixel. -/
theorem pixel_set_spec (img : ppm_image) (idx : Nat) (px : ppm_pixel)
    (h : idx < img.data.length) :
    ∃ img', pixel_set img idx px = some img' ∧ img'.x = img.x ∧ img'.y = img.y ∧
      img'.data.length = img.data.length ∧
      ∀ m, img'.data[m]? = if m = idx then some px else img.data[m]? := by
  refine ⟨{ img with data := img.data.set idx px }, ?_, rfl, rfl, ?_, ?_⟩
  · simp [pixel_set, h]
  · simp
  · intro m
    simp only [List.getElem?_set]
    by_cases hm : idx = m
    · subst hm
      simp [h]
    · have hm2 : ¬ m = idx := fun e => hm e.symm
      simp [hm, hm2]

/-- Position `r * Y + c` (with `c < Y`) lies in the segment
`[m * Y + lo, m * Y + hi)` of row `m` exactly when `r = m` and `lo ≤ c < hi`. -/
theorem row_index_iff (Y r c m lo hi : Nat) (hc : c < Y) (hhi : hi ≤ Y) :
    (m * Y + lo ≤ r * Y + c ∧ r * Y + c < m * Y + hi) ↔ (r = m ∧ lo ≤ c ∧ c < hi) := by
  constructor
  · rintro ⟨h1, h2⟩
    rcases Nat.lt_trichotomy r m with h | h | h
    · have h3 : (r + 1) * Y ≤ m * Y := Nat.mul_le_mul_right Y h
      have h4 : (r + 1) * Y = r * Y + Y := by ring
      omega
    · subst h
      omega
    · have h3 : (m + 1) * Y ≤ r * Y := Nat.mul_le_mul_right Y h
      have h4 : (m + 1) * Y = m * Y + Y := by ring
      omega
  · rintro ⟨h, h1, h2⟩
    subst h
    omega

/-- The inner loop of `update_image`: `n` pixels copied from `src[S ..]` to
`data[B ..]`. -/
theorem copy_row_spec (src : List ppm_pixel) (S B n : Nat) (img : ppm_image)
    (hs : ∀ j, j < n → S + j < src.length) (hB : B + n ≤ img.data.length) :
    ∃ img', forLoop (fun j im =>
        match src[S + j]? with
        | none => none
        | some px => pixel_set im (B + j) px) n 0 img = some img' ∧
      img'.x = img.x ∧ img'.y = img.y ∧ img'.data.length = img.data.length ∧
      ∀ m, img'.data[m]? = if B ≤ m ∧ m < B + n then src[S + (m - B)]? else img.data[m]? := by
  have h := forLoop_rule
    (fun j im =>
        match src[S + j]? with
        | none => none
        | some px => pixel_set im (B + j) px)
    (fun j t => t.x = img.x ∧ t.y = img.y ∧ t.data.length = img.data.length ∧
      ∀ m, t.data[m]? = if B ≤ m ∧ m < B + j then src[S + (m - B)]? else img.data[m]?)
    n 0 img
    ⟨rfl, rfl, rfl, fun m => by rw [if_neg (by omega)]⟩
    (by
      intro j t _ hj ⟨hx, hy, hl, hc⟩
      have hsj : S + j < src.length := hs j (by omega)
      obtain ⟨t', e1, e2, e3, e4, e5⟩ := pixel_set_spec t (B + j) (src[S + j]) (by omega)
      refine ⟨t', ?_, by omega, by omega, by omega, ?_⟩
      · simp only [List.getElem?_eq_getElem hsj]
        exact e1
      · intro m
        rw [e5 m]
        by_cases hm : m = B + j
        · subst hm
          rw [if_pos rfl, if_pos (by omega)]
          have : S + (B + j - B) = S + j := by omega
          rw [this, List.getElem?_eq_getElem hsj]
        · rw [if_neg hm, hc m]
          by_cases h1 : B ≤ m ∧ m < B + j
          · rw [if_pos h1, if_pos (by omega)]
          · rw [if_neg h1, if_neg (by omega)])
  obtain ⟨img', e1, e2, e3, e4, e5⟩ := h
  refine ⟨img', e1, e2, e3, e4, ?_⟩
  intro m
  have := e5 m
  rw [Nat.zero_add] at this
  exact this

/-- Source `update_image` when the tile fits: the call returns, the image
keeps its dimensions, the pixel at row `r`, column `c` of the region
`[x0, x0 + contour.x) × [y0, y0 + contour.y)` becomes the tile pixel with
index `contour.x * (r - x0) + (c - y0)`, and every other pixel is unchanged. -/
theorem update_image_spec (image contour : ppm_image) (x0 y0 : Nat)
    (hy : y0 + contour.y ≤ image.y)
    (hx : (x0 + contour.x) * image.y ≤ image.data.length)
    (ht : ∀ i j, i < contour.x → j < contour.y → contour.x * i + j < contour.data.length) :
    ∃ img', update_image image contour x0 y0 = some img' ∧
      img'.x = image.x ∧ img'.y = image.y ∧ img'.data.length = image.data.length ∧
      ∀ r c, c < image.y → img'.data[r * image.y + c]? =
        if x0 ≤ r ∧ r < x0 + contour.x ∧ y0 ≤ c ∧ c < y0 + contour.y then
          contour.data[contour.x * (r - x0) + (c - y0)]?
        else image.data[r * image.y + c]? := by
  have h := forLoop_rule
    (fun i img =>
      forLoop (fun j img =>
        match contour.data[contour.x * i + j]? with
        | none => none
        | some px => pixel_set img ((x0 + i) * image.y + y0 + j) px) contour.y 0 img)
    (fun i t => t.x = image.x ∧ t.y = image.y ∧ t.data.length = image.data.length ∧
      ∀ r c, c < image.y → t.data[r * image.y + c]? =
        if x0 ≤ r ∧ r < x0 + i ∧ y0 ≤ c ∧ c < y0 + contour.y then
          contour.data[contour.x * (r - x0) + (c - y0)]?
        else image.data[r * image.y + c]?)
    contour.x 0 image
    ⟨rfl, rfl, rfl, fun r c _ => by rw [if_neg (by omega)]⟩
    (by
      intro i t _ hi ⟨e1, e2, e3, e4⟩
      have hi2 : i < contour.x := by omega
      have hrow : (x0 + i + 1) * image.y ≤ (x0 + contour.x) * image.y :=
        Nat.mul_le_mul_right image.y (by omega)
      have hrow2 : (x0 + i + 1) * image.y = (x0 + i) * image.y + image.y := by ring
      obtain ⟨t', f1, f2, f3, f4, f5⟩ := copy_row_spec contour.data (contour.x * i)
        ((x0 + i) * image.y + y0) contour.y t (fun j hj => ht i j hi2 hj) (by omega)
      refine ⟨t', f1, by omega, by omega, by omega, ?_⟩
      intro r c hc
      rw [f5 (r * image.y + c)]
      have hiff := row_index_iff image.y r c (x0 + i) y0 (y0 + contour.y) hc hy
      have hassoc : (x0 + i) * image.y + y0 + contour.y
          = (x0 + i) * image.y + (y0 + contour.y) := by omega
      rw [hassoc]
      by_cases hin : r = x0 + i ∧ y0 ≤ c ∧ c < y0 + contour.y
      · rw [if_pos (hiff.mpr hin), if_pos (by omega)]
        obtain ⟨hr, hc1, hc2⟩ := hin
        subst hr
        have h1 : (x0 + i) * image.y + c - ((x0 + i) * image.y + y0) = c - y0 := by omega
        have h2 : x0 + i - x0 = i := by omega
        rw [h1, h2]
      · rw [if_neg (fun h => hin (hiff.mp h)), e4 r c hc]
        by_cases h1 : x0 ≤ r ∧ r < x0 + i ∧ y0 ≤ c ∧ c < y0 + contour.y
        · rw [if_pos h1, if_pos (by omega)]
        · rw [if_neg h1, if_neg (by omega)])
  obtain ⟨img', e1, e2, e3, e4, e5⟩ := h
  refine ⟨img', e1, e2, e3, e4, ?_⟩
  intro r c hc
  have := e5 r c hc
  rw [Nat.zero_add] at this
  exact this

/-- One marching step: the tile selected by the code of cell `(i, j)` is
stamped on the region of that cell and nothing else changes. Pixels are
addressed by cell `(i', j')` and offset `(a, b)` inside the cell. -/
theorem march_cell_spec (grid : Grid) (contour_map : List ppm_image)
    (step_x step_y i j : Nat) (t : ppm_image)
    (hfit : ∃ k contour, cell_code grid i j = some k ∧
      contour_map[k]? = some contour ∧ contour.x = step_x ∧ contour.y = step_y ∧
      ∀ a b, a < step_x → b < step_y → step_x * a + b < contour.data.length)
    (hy : j * step_y + step_y ≤ t.y)
    (hx : (i * step_x + step_x) * t.y ≤ t.data.length) :
    ∃ t', march_cell grid contour_map step_x step_y i j t = some t' ∧
      t'.x = t.x ∧ t'.y = t.y ∧ t'.data.length = t.data.length ∧
      ∀ i' a j' b, a < step_x → b < step_y → j' * step_y + b < t.y →
        t'.data[(i' * step_x + a) * t.y + (j' * step_y + b)]? =
          if i' = i ∧ j' = j then stamped_pixel grid contour_map i j a b
          else t.data[(i' * step_x + a) * t.y + (j' * step_y + b)]? := by
  obtain ⟨k, contour, hk, hc, hcx, hcy, hlen⟩ := hfit
  subst hcx
  subst hcy
  obtain ⟨t', e1, e2, e3, e4, e5⟩ := update_image_spec t contour (i * contour.x) (j * contour.y)
    hy hx hlen
  refine ⟨t', ?_, e2, e3, e4, ?_⟩
  · simp only [march_cell, hk, hc]
    exact e1
  · intro i' a j' b ha hb hjb
    rw [e5 _ _ hjb]
    have h1 := row_index_iff contour.x i' a i 0 contour.x ha (Nat.le_refl _)
    have h2 := row_index_iff contour.y j' b j 0 contour.y hb (Nat.le_refl _)
    simp only [Nat.add_zero] at h1 h2
    by_cases hij : i' = i ∧ j' = j
    · obtain ⟨hi, hj⟩ := hij
      subst hi
      subst hj
      rw [if_pos (by omega), if_pos ⟨rfl, rfl⟩]
      have h3 : i' * contour.x + a - i' * contour.x = a := by omega
      have h4 : j' * contour.y + b - j' * contour.y = b := by omega
      rw [h3, h4]
      simp only [stamped_pixel, hk, hc]
    · rw [if_neg hij, if_neg]
      intro ⟨c1, c2, c3, c4⟩
      exact hij ⟨(h1.mp ⟨c1, c2⟩).1, (h2.mp ⟨c3, c4⟩).1⟩

/-- The marching loops over the rows `s .. e - 1`: every cell of those rows
gets its tile, every other pixel is unchanged. -/
theorem march_rows_spec (grid : Grid) (contour_map : List ppm_image)
    (step_x step_y p q s e : Nat) (image : ppm_image)
    (hse : s ≤ e) (hep : e ≤ p)
    (hfit : TilesFit grid contour_map step_x step_y p q)
    (hy : q * step_y ≤ image.y)
    (hx : p * step_x * image.y ≤ image.data.length) :
    ∃ t', march_rows grid contour_map step_x step_y q s e image = some t' ∧
      t'.x = image.x ∧ t'.y = image.y ∧ t'.data.length = image.data.length ∧
      ∀ i a j b, a < step_x → b < step_y → j * step_y + b < image.y →
        t'.data[(i * step_x + a) * image.y + (j * step_y + b)]? =
          if s ≤ i ∧ i < e ∧ j < q then stamped_pixel grid contour_map i j a b
          else image.data[(i * step_x + a) * image.y + (j * step_y + b)]? := by
  have h := forLoop_rule
    (fun i img =>
      forLoop (fun j img => march_cell grid contour_map step_x step_y i j img) q 0 img)
    (fun m t => t.x = image.x ∧ t.y = image.y ∧ t.data.length = image.data.length ∧
      ∀ i a j b, a < step_x → b < step_y → j * step_y + b < image.y →
        t.data[(i * step_x + a) * image.y + (j * step_y + b)]? =
          if s ≤ i ∧ i < m ∧ j < q then stamped_pixel grid contour_map i j a b
          else image.data[(i * step_x + a) * image.y + (j * step_y + b)]?)
    (e - s) s image
    ⟨rfl, rfl, rfl, fun i a j b _ _ _ => by rw [if_neg (by omega)]⟩
    (by
      intro i t hi1 hi2 ⟨e1, e2, e3, e4⟩
      have hip : i < p := by omega
      have hrow : (i * step_x + step_x) * image.y ≤ p * step_x * image.y := by
        have h1 : (i + 1) * step_x ≤ p * step_x := Nat.mul_le_mul_right step_x hip
        have h2 : (i + 1) * step_x = i * step_x + step_x := by ring
        rw [← h2]
        exact Nat.mul_le_mul_right image.y h1
      have hin := forLoop_rule
        (fun j img => march_cell grid contour_map step_x step_y i j img)
        (fun n u => u.x = image.x ∧ u.y = image.y ∧ u.data.length = image.data.length ∧
          ∀ i' a j' b, a < step_x → b < step_y → j' * step_y + b < image.y →
            u.data[(i' * step_x + a) * image.y + (j' * step_y + b)]? =
              if i' = i ∧ j' < n then stamped_pixel grid contour_map i' j' a b
              else t.data[(i' * step_x + a) * image.y + (j' * step_y + b)]?)
        q 0 t
        ⟨e1, e2, e3, fun i' a j' b _ _ _ => by rw [if_neg (by omega)]⟩
        (by
          intro j u _ hj ⟨f1, f2, f3, f4⟩
          have hjq : j < q := by omega
          have hcol : j * step_y + step_y ≤ image.y := by
            have h1 : (j + 1) * step_y ≤ q * step_y := Nat.mul_le_mul_right step_y hjq
            have h2 : (j + 1) * step_y = j * step_y + step_y := by ring
            omega
          obtain ⟨u', g1, g2, g3, g4, g5⟩ := march_cell_spec grid contour_map step_x step_y
            i j u (hfit i hip j hjq) (by rw [f2]; exact hcol) (by rw [f2, f3]; omega)
          refine ⟨u', g1, by omega, by omega, by omega, ?_⟩
          intro i' a j' b ha hb hjb
          have := g5 i' a j' b ha hb (by rw [f2]; exact hjb)
          rw [f2] at this
          rw [this, f4 i' a j' b ha hb hjb]
          by_cases hc : i' = i ∧ j' = j
          · obtain ⟨hc1, hc2⟩ := hc
            subst hc1
            subst hc2
            rw [if_pos ⟨rfl, rfl⟩, if_pos ⟨rfl, by omega⟩]
          · rw [if_neg hc]
            by_cases hd : i' = i ∧ j' < j
            · rw [if_pos hd, if_pos (by omega)]
            · rw [if_neg hd, if_neg (by omega)])
      obtain ⟨t', g1, g2, g3, g4, g5⟩ := hin
      refine ⟨t', g1, g2, g3, g4, ?_⟩
      intro i' a j' b ha hb hjb
      rw [g5 i' a j' b ha hb hjb, e4 i' a j' b ha hb hjb, Nat.zero_add]
      by_cases hc : i' = i ∧ j' < q
      · rw [if_pos hc, if_pos (by omega)]
      · rw [if_neg hc]
        by_cases hd : s ≤ i' ∧ i' < i ∧ j' < q
        · rw [if_pos hd, if_pos (by omega)]
        · rw [if_neg hd, if_neg (by omega)])
  obtain ⟨t', e1, e2, e3, e4, e5⟩ := h
  refine ⟨t', e1, e2, e3, e4, ?_⟩
  have hs : s + (e - s) = e := by omega
  rw [hs] at e5
  exact e5

/-- The marching passes of all `N` workers: every cell `(i, j)` with `i < p`
and `j < q` gets its tile, every other pixel is unchanged. -/
theorem march_all_spec (grid : Grid) (contour_map : List ppm_image)
    (step_x step_y N : Nat) (image : ppm_image) (hN : 1 ≤ N)
    (hfit : TilesFit grid contour_map step_x step_y (image.x / step_x) (image.y / step_y))
    (hlen : image.data.length = image.x * image.y) :
    ∃ t', march_all grid contour_map step_x step_y N image = some t' ∧
      t'.x = image.x ∧ t'.y = image.y ∧ t'.data.length = image.data.length ∧
      ∀ i a j b, a < step_x → b < step_y → j * step_y + b < image.y →
        t'.data[(i * step_x + a) * image.y + (j * step_y + b)]? =
          if i < image.x / step_x ∧ j < image.y / step_y then
            stamped_pixel grid contour_map i j a b
          else image.data[(i * step_x + a) * image.y + (j * step_y + b)]? := by
  have hy : image.y / step_y * step_y ≤ image.y := Nat.div_mul_le_self image.y step_y
  have hx : image.x / step_x * step_x * image.y ≤ image.data.length := by
    rw [hlen]
    exact Nat.mul_le_mul_right image.y (Nat.div_mul_le_self image.x step_x)
  have h := forLoop_rule
    (fun t img => function_march grid contour_map step_x step_y t N img)
    (fun t u => u.x = image.x ∧ u.y = image.y ∧ u.data.length = image.data.length ∧
      ∀ i a j b, a < step_x → b < step_y → j * step_y + b < image.y →
        u.data[(i * step_x + a) * image.y + (j * step_y + b)]? =
          if i < range_start t (image.x / step_x) N ∧ j < image.y / step_y then
            stamped_pixel grid contour_map i j a b
          else image.data[(i * step_x + a) * image.y + (j * step_y + b)]?)
    N 0 image
    ⟨rfl, rfl, rfl, fun i a j b _ _ _ => by
      rw [range_start_zero, if_neg (by omega)]⟩
    (by
      intro t u _ ht ⟨e1, e2, e3, e4⟩
      have htN : t < N := by omega
      have hse := range_start_le_end t (image.x / step_x) N htN
      have hep := range_end_le t (image.x / step_x) N
      have hes := range_end_eq_start_succ t (image.x / step_x) N htN
      obtain ⟨u', f1, f2, f3, f4, f5⟩ := march_rows_spec grid contour_map step_x step_y
        (image.x / step_x) (image.y / step_y)
        (range_start t (image.x / step_x) N) (range_end t (image.x / step_x) N) u
        hse hep hfit (by rw [e2]; exact hy) (by rw [e2, e3]; exact hx)
      refine ⟨u', ?_, by omega, by omega, by omega, ?_⟩
      · simp only [function_march, e1, e2]
        exact f1
      · intro i a j b ha hb hjb
        have := f5 i a j b ha hb (by rw [e2]; exact hjb)
        rw [e2] at this
        rw [this, e4 i a j b ha hb hjb, ← hes]
        split_ifs <;> first | rfl | omega)
  obtain ⟨t', e1, e2, e3, e4, e5⟩ := h
  refine ⟨t', e1, e2, e3, e4, ?_⟩
  intro i a j b ha hb hjb
  have := e5 i a j b ha hb hjb
  rw [Nat.zero_add, range_start_last _ _ hN] at this
  exact this

/-- A corner sum below 256 is the code the byte `k` holds. -/
theorem cell_code_of_corner_sum (grid : Grid) (i j k : Nat)
    (h : corner_sum grid i j = some k) (hk : k < 256) : cell_code grid i j = some k := by
  unfold corner_sum at h
  unfold cell_code
  split at h
  · simp only [Option.some.injEq] at h
    simp only [Option.some.injEq]
    omega
  · exact absurd h (by simp)

/-- Square tiles of the catalog fit the marching reads when every corner sum
selects a catalog entry. -/
theorem tilesFit_of_catalog (grid : Grid) (contour_map : List ppm_image)
    (step_x step_y p q : Nat) (hsq : step_x = step_y)
    (hcat : contour_map.length = CONTOUR_CONFIG_COUNT)
    (htile : ∀ contour ∈ contour_map, contour.x = step_x ∧ contour.y = step_y ∧
      contour.data.length = contour.x * contour.y)
    (hcode : ∀ i, i < p → ∀ j, j < q →
      ∃ k, k < CONTOUR_CONFIG_COUNT ∧ corner_sum grid i j = some k) :
    TilesFit grid contour_map step_x step_y p q := by
  intro i hi j hj
  obtain ⟨k, hk, hs⟩ := hcode i hi j hj
  have hk2 : k < contour_map.length := by omega
  have hk3 : k < 256 := by
    unfold CONTOUR_CONFIG_COUNT at hk
    omega
  obtain ⟨h1, h2, h3⟩ := htile _ (List.getElem_mem hk2)
  refine ⟨k, contour_map[k], cell_code_of_corner_sum grid i j k hs hk3,
    List.getElem?_eq_getElem hk2, h1, h2, ?_⟩
  intro a b ha hb
  rw [h3, h1, h2]
  subst hsq
  have : step_x * (a + 1) ≤ step_x * step_x := Nat.mul_le_mul_left step_x ha
  have : step_x * (a + 1) = step_x * a + step_x := by ring
  omega

/-- C2. With square tiles of size `step_x` by `step_y` and every cell code
`k = 8 * grid[i][j] + 4 * grid[i][j + 1] + 2 * grid[i + 1][j + 1]
+ 1 * grid[i + 1][j]` selecting one of the 16 catalog entries, the marching
passes of the `N ≥ 1` workers (together: all rows `0 .. P - 1`) return; for
every cell `(i, j)`, `i < P`, `j < Q`, and offset `(a, b)` inside the tile the
canvas pixel at row `i * step_x + a`, column `j * step_y + b` is pixel `(a, b)`
of `catalog[k]`; every canvas pixel outside those cell regions is unchanged. -/
theorem march_all_stamps (grid : Grid) (contour_map : List ppm_image)
    (step_x step_y N : Nat) (image : ppm_image) (hN : 1 ≤ N)
    (hsq : step_x = step_y) (hpos : 0 < step_x)
    (hlen : image.data.length = image.x * image.y)
    (hcat : contour_map.length = CONTOUR_CONFIG_COUNT)
    (htile : ∀ contour ∈ contour_map, contour.x = step_x ∧ contour.y = step_y ∧
      contour.data.length = contour.x * contour.y)
    (hcode : ∀ i, i < image.x / step_x → ∀ j, j < image.y / step_y →
      ∃ k, k < CONTOUR_CONFIG_COUNT ∧ corner_sum grid i j = some k) :
    ∃ img', march_all grid contour_map step_x step_y N image = some img' ∧
      img'.x = image.x ∧ img'.y = image.y ∧ img'.data.length = image.data.length ∧
      (∀ i j a b, i < image.x / step_x → j < image.y / step_y → a < step_x → b < step_y →
        ∃ k contour px, corner_sum grid i j = some k ∧ contour_map[k]? = some contour ∧
          contour.data[a * contour.y + b]? = some px ∧
          img'.data[(i * step_x + a) * image.y + (j * step_y + b)]? = some px) ∧
      (∀ r c, r < image.x → c < image.y →
        ¬ (r < image.x / step_x * step_x ∧ c < image.y / step_y * step_y) →
        img'.data[r * image.y + c]? = image.data[r * image.y + c]?) := by
  have hfit := tilesFit_of_catalog grid contour_map step_x step_y
    (image.x / step_x) (image.y / step_y) hsq hcat htile hcode
  obtain ⟨img', e1, e2, e3, e4, e5⟩ := march_all_spec grid contour_map step_x step_y N image
    hN hfit hlen
  refine ⟨img', e1, e2, e3, e4, ?_, ?_⟩
  · intro i j a b hi hj ha hb
    obtain ⟨k, hk, hs⟩ := hcode i hi j hj
    have hk2 : k < contour_map.length := by omega
    have hk3 : k < 256 := by
      unfold CONTOUR_CONFIG_COUNT at hk
      omega
    obtain ⟨h1, h2, h3⟩ := htile _ (List.getElem_mem hk2)
    have hidx : a * (contour_map[k]).y + b < (contour_map[k]).data.length := by
      rw [h3, h1, h2]
      subst hsq
      have : (a + 1) * step_x ≤ step_x * step_x := Nat.mul_le_mul_right step_x ha
      have : (a + 1) * step_x = a * step_x + step_x := by ring
      omega
    have hcol : j * step_y + b < image.y := by
      have h4 : (j + 1) * step_y ≤ image.y / step_y * step_y := Nat.mul_le_mul_right step_y hj
      have h5 : (j + 1) * step_y = j * step_y + step_y := by ring
      have h6 := Nat.div_mul_le_self image.y step_y
      omega
    refine ⟨k, contour_map[k], (contour_map[k]).data[a * (contour_map[k]).y + b], hs,
      List.getElem?_eq_getElem hk2, List.getElem?_eq_getElem hidx, ?_⟩
    rw [e5 i a j b ha hb hcol, if_pos ⟨hi, hj⟩]
    simp only [stamped_pixel, cell_code_of_corner_sum grid i j k hs hk3,
      List.getElem?_eq_getElem hk2]
    have hxy : (contour_map[k]).x * a = a * (contour_map[k]).y := by
      rw [h1, h2, hsq, Nat.mul_comm]
    rw [hxy, List.getElem?_eq_getElem hidx]
  · intro r c _ hc hout
    have hposy : 0 < step_y := by omega
    have hr : r / step_x * step_x + r % step_x = r := Nat.div_add_mod' r step_x
    have hcc : c / step_y * step_y + c % step_y = c := Nat.div_add_mod' c step_y
    have := e5 (r / step_x) (r % step_x) (c / step_y) (c % step_y)
      (Nat.mod_lt r hpos) (Nat.mod_lt c hposy) (by rw [hcc]; exact hc)
    rw [hr, hcc] at this
    rw [this, if_neg]
    intro ⟨h1, h2⟩
    exact hout ⟨(Nat.div_lt_iff_lt_mul hpos).mp h1, (Nat.div_lt_iff_lt_mul hposy).mp h2⟩

/-! ## Witnesses for the marching and sampling theorems -/

/-- Witness for C2: a 5 by 5 canvas, step 2, two workers. -/
theorem march_all_stamps_witness :
    ∃ img', march_all grid_3x3 catalog_2x2 2 2 2 (solid 5 5 9) = some img' ∧
      img'.x = (solid 5 5 9).x ∧ img'.y = (solid 5 5 9).y ∧
      img'.data.length = (solid 5 5 9).data.length ∧
      (∀ i j a b, i < (solid 5 5 9).x / 2 → j < (solid 5 5 9).y / 2 → a < 2 → b < 2 →
        ∃ k contour px, corner_sum grid_3x3 i j = some k ∧
          catalog_2x2[k]? = some contour ∧
          contour.data[a * contour.y + b]? = some px ∧
          img'.data[(i * 2 + a) * (solid 5 5 9).y + (j * 2 + b)]? = some px) ∧
      (∀ r c, r < (solid 5 5 9).x → c < (solid 5 5 9).y →
        ¬ (r < (solid 5 5 9).x / 2 * 2 ∧ c < (solid 5 5 9).y / 2 * 2) →
        img'.data[r * (solid 5 5 9).y + c]? = (solid 5 5 9).data[r * (solid 5 5 9).y + c]?) :=
  march_all_stamps grid_3x3 catalog_2x2 2 2 2 (solid 5 5 9) (by decide) rfl (by decide)
    (by decide) (by decide) (by decide) (by decide)

/-- Witness for C3: a 2 by 2 canvas, step 1, two workers, a grid of 3 by 3
bytes that all hold 7 before sampling. -/
theorem sample_all_interior_witness :
    ∃ g', sample_all canvas_2x2 1 1 SIGMA 2 (fresh_grid 7 3 3) = some g' ∧
      ∀ i j, i < canvas_2x2.x / 1 → j < canvas_2x2.y / 1 →
        ∃ px, canvas_2x2.data[i * 1 * canvas_2x2.y + j * 1]? = some px ∧
          (px.red + px.green + px.blue) / 3 ≤ 255 ∧
          grid_get g' i j =
            some (if (px.red + px.green + px.blue) / 3 > SIGMA then 0 else 1) :=
  sample_all_interior canvas_2x2 1 1 2 (fresh_grid 7 3 3) 3 3 (by decide) (by decide)
    (by decide) (by decide) (by decide) (by decide) (by decide)

/-! ## What the boundary loops leave behind -/

/-- No sampling loop writes the corner cell `grid[P][Q]`: on every canvas
with `P ≤ Q` whose sampling reads stay in bounds, the cell holds after the
sampling passes of all workers what it held before. -/
theorem sample_all_corner_unchanged (image : ppm_image) (step_x step_y sigma N : Nat)
    (g : Grid) (R C : Nat) (hN : 1 ≤ N) (hd : GridDims g R C)
    (hpR : image.x / step_x < R) (hqC : image.y / step_y < C)
    (hPQ : image.x / step_x ≤ image.y / step_y)
    (hin : SampleReadsInBounds image step_x step_y) :
    ∃ g', sample_all image step_x step_y sigma N g = some g' ∧
      grid_get g' (image.x / step_x) (image.y / step_y)
        = grid_get g (image.x / step_x) (image.y / step_y) := by
  obtain ⟨g', e1, _, e3⟩ := sample_all_spec image step_x step_y sigma N g R C hN hd hpR hqC
    (by omega) hin
  refine ⟨g', e1, ?_⟩
  rw [e3, if_neg (by omega), if_neg (by omega), if_neg (by omega)]

/-- The cell `grid[i][Q]`, `i < P`, holds the sample of the pixel with index
`i * step_x * y + x - 1`. -/
theorem sample_all_last_column (image : ppm_image) (step_x step_y sigma N : Nat)
    (g : Grid) (R C : Nat) (hN : 1 ≤ N) (hd : GridDims g R C)
    (hpR : image.x / step_x < R) (hqC : image.y / step_y < C)
    (hpC : image.x / step_x ≤ C)
    (hin : SampleReadsInBounds image step_x step_y) :
    ∃ g', sample_all image step_x step_y sigma N g = some g' ∧
      ∀ i, i < image.x / step_x →
        grid_get g' i (image.y / step_y)
          = (image.data[i * step_x * image.y + image.x - 1]?).map (binarize sigma) := by
  obtain ⟨g', e1, _, e3⟩ := sample_all_spec image step_x step_y sigma N g R C hN hd hpR hqC
    hpC hin
  refine ⟨g', e1, ?_⟩
  intro i hi
  rw [e3, if_neg (by omega), if_pos ⟨hi, rfl⟩]
  rfl

/-- The cells `grid[P][j]` with `P ≤ j ≤ Q` are written by no sampling loop:
the boundary-row loop stops at `j = P - 1`. -/
theorem sample_all_last_row_tail (image : ppm_image) (step_x step_y sigma N : Nat)
    (g : Grid) (R C : Nat) (hN : 1 ≤ N) (hd : GridDims g R C)
    (hpR : image.x / step_x < R) (hqC : image.y / step_y < C)
    (hpC : image.x / step_x ≤ C)
    (hin : SampleReadsInBounds image step_x step_y) :
    ∃ g', sample_all image step_x step_y sigma N g = some g' ∧
      ∀ j, image.x / step_x ≤ j →
        grid_get g' (image.x / step_x) j = grid_get g (image.x / step_x) j := by
  obtain ⟨g', e1, _, e3⟩ := sample_all_spec image step_x step_y sigma N g R C hN hd hpR hqC
    hpC hin
  refine ⟨g', e1, ?_⟩
  intro j hj
  rw [e3, if_neg (by omega), if_neg (by omega), if_neg (by omega)]

/-! ## The program on concrete canvases -/

set_option maxRecDepth 8000

/-- C4, evaluated. An all-white canvas of 8 by 8 pixels (`P = Q = 1`), one
worker, a fresh 2 by 2 grid whose bytes all hold 7: sampling returns and
`grid[P][Q]` still holds 7, neither 0 nor 1. -/
theorem sample_all_corner_stays_fresh :
    (solid 8 8 255).x / STEP = 1 ∧ (solid 8 8 255).y / STEP = 1 ∧
    ∃ g', sample_all (solid 8 8 255) STEP STEP SIGMA 1 (fresh_grid 7 2 2) = some g' ∧
      grid_get g' 1 1 = some 7 ∧
      ¬ (grid_get g' 1 1 = some 0 ∨ grid_get g' 1 1 = some 1) :=
  ⟨by decide, by decide, [[0, 0], [0, 7]], by decide, by decide, by decide⟩

/-- C5, evaluated. An all-white canvas of 8 by 8 pixels, one worker, a fresh
grid whose bytes all hold 8: after sampling the code of cell `(0, 0)` is 16,
the catalog of 16 tiles has no entry 16, and the marching pass fails on the
lookup. -/
theorem cell_code_exceeds_catalog :
    ∃ g', sample_all (solid 8 8 255) STEP STEP SIGMA 1 (fresh_grid 8 2 2) = some g' ∧
      cell_code g' 0 0 = some 16 ∧
      (catalog_flat 8).length = 16 ∧ (catalog_flat 8)[16]? = none ∧
      march_all g' (catalog_flat 8) STEP STEP 1 (solid 8 8 255) = none :=
  ⟨[[0, 0], [0, 8]], by decide, by decide, by decide, by decide, by decide⟩

/-- C6, evaluated. A canvas of 8 rows and 16 columns (`P = 1`, `Q = 2`),
white except for a black pixel at row 0, column 7: the loop reads index
`0 * 8 * 16 + 8 - 1 = 7` for `grid[0][Q]` and stores 1, while the pixel of the
last column, index `0 * 8 * 16 + (16 - 1) = 15`, is bright (sample 0). -/
theorem last_column_reads_column_x :
    canvas_8x16.x / STEP = 1 ∧ canvas_8x16.y / STEP = 2 ∧
    last_column_index canvas_8x16 STEP 0 = 7 ∧
    ∃ g', sample_all canvas_8x16 STEP STEP SIGMA 1 (fresh_grid 7 2 3) = some g' ∧
      grid_get g' 0 2 = some 1 ∧
      (canvas_8x16.data[0 * STEP * canvas_8x16.y + (canvas_8x16.y - 1)]?).map
        (binarize SIGMA) = some 0 :=
  ⟨by decide, by decide, by decide, [[0, 0, 1], [0, 7, 7]], by decide, by decide, by decide⟩

/-- C7, evaluated. On the canvas of 8 rows and 16 columns (`P = 1`, `Q = 2`)
with one worker the boundary-row loop runs over `j = 0` only: `grid[P][1]`
keeps the byte 7 of the fresh grid, while the pixel of the last row at column
`1 * 8`, index `(8 - 1) * 16 + 8`, has sample 0. -/
theorem last_row_stops_at_p :
    canvas_8x16.x / STEP = 1 ∧ canvas_8x16.y / STEP = 2 ∧
    ∃ g', sample_all canvas_8x16 STEP STEP SIGMA 1 (fresh_grid 7 2 3) = some g' ∧
      grid_get g' 1 1 = some 7 ∧
      (canvas_8x16.data[(canvas_8x16.x - 1) * canvas_8x16.y + 1 * STEP]?).map
        (binarize SIGMA) = some 0 :=
  ⟨by decide, by decide, [[0, 0, 1], [0, 7, 7]], by decide, by decide, by decide⟩

/-- C8, evaluated. On a canvas of 16 rows and 8 columns (`P = 2`, `Q = 1`)
with one worker, whose range is rows 0 and 1, the boundary-row loop reaches
`j = 1` and reads index `(16 - 1) * 8 + 1 * 8 = 128 = x * y`, one past the
pixel buffer; the sampling pass fails there. -/
theorem last_row_reads_past_buffer :
    (solid 16 8 255).x / STEP = 2 ∧ (solid 16 8 255).y / STEP = 1 ∧
    range_start 0 2 1 ≤ 1 ∧ 1 < range_end 0 2 1 ∧
    last_row_index (solid 16 8 255) STEP 1 = (solid 16 8 255).x * (solid 16 8 255).y ∧
    (solid 16 8 255).data.length = (solid 16 8 255).x * (solid 16 8 255).y ∧
    ¬ SampleReadsInBounds (solid 16 8 255) STEP STEP ∧
    sample_all (solid 16 8 255) STEP STEP SIGMA 1 (fresh_grid 7 3 2) = none :=
  ⟨by decide, by decide, by decide, by decide, by decide, by decide, by decide, by decide⟩

/-- C9, evaluated. An all-white canvas of 8 by 8 pixels, one worker, a fresh
grid whose bytes all hold 1: after sampling `grid[1][1]` is still 1, the code
of cell `(0, 0)` is 2, and the final canvas is tile 2 of the catalog, not
tile 0. -/
theorem bright_canvas_gets_tile_2 :
    (∀ px ∈ (solid 8 8 255).data, (px.red + px.green + px.blue) / 3 > 200) ∧
    ∃ g' img', sample_then_march (solid 8 8 255) (catalog_flat 8) STEP STEP SIGMA 1
        (fresh_grid 1 2 2) = some (g', img') ∧
      grid_get g' 1 1 = some 1 ∧ cell_code g' 0 0 = some 2 ∧
      (catalog_flat 8)[2]? = some (solid 8 8 2) ∧
      (catalog_flat 8)[0]? = some (solid 8 8 0) ∧
      img' = solid 8 8 2 ∧ img' ≠ solid 8 8 0 :=
  ⟨by decide, [[0, 0], [0, 1]], solid 8 8 2, by decide, by decide, by decide, by decide,
    by decide, rfl, by decide⟩

/-- C10, evaluated. An all-black canvas of 8 by 8 pixels, one worker, a fresh
grid whose bytes all hold 0: after sampling `grid[1][1]` is still 0, the code
of cell `(0, 0)` is 13, and the final canvas is tile 13 of the catalog, not
tile 15. -/
theorem dark_canvas_gets_tile_13 :
    (∀ px ∈ (solid 8 8 0).data, (px.red + px.green + px.blue) / 3 ≤ 200) ∧
    ∃ g' img', sample_then_march (solid 8 8 0) (catalog_flat 8) STEP STEP SIGMA 1
        (fresh_grid 0 2 2) = some (g', img') ∧
      grid_get g' 1 1 = some 0 ∧ cell_code g' 0 0 = some 13 ∧
      (catalog_flat 8)[13]? = some (solid 8 8 13) ∧
      (catalog_flat 8)[15]? = some (solid 8 8 15) ∧
      img' = solid 8 8 13 ∧ img' ≠ solid 8 8 15 :=
  ⟨by decide, [[1, 1], [1, 0]], solid 8 8 13, by decide, by decide, by decide, by decide,
    by decide, rfl, by decide⟩

/-! ## Sizes of the row ranges -/

theorem mul_div_decomp (N q r t : Nat) (hN : 0 < N) :
    t * (N * q + r) / N = t * q + t * r / N := by
  have h : t * (N * q + r) = N * (t * q) + t * r := by ring
  rw [h, Nat.mul_add_div hN]

/-- The first row of worker `t`, split along `extent = N * (extent / N) + extent % N`. -/
theorem range_start_decomp (t extent N : Nat) (hN : 0 < N) :
    range_start t extent N = t * (extent / N) + t * (extent % N) / N := by
  unfold range_start
  have h := mul_div_decomp N (extent / N) (extent % N) t hN
  rw [Nat.div_add_mod] at h
  exact h

/-- Adding less than `N` to a numerator raises the quotient by at most one. -/
theorem div_step (a r N : Nat) (hN : 0 < N) (hr : r < N) :
    a / N ≤ (a + r) / N ∧ (a + r) / N ≤ a / N + 1 := by
  constructor
  · exact Nat.div_le_div_right (Nat.le_add_right a r)
  · have h1 : (a + r) / N ≤ (a + N) / N := Nat.div_le_div_right (by omega)
    have h2 : (a + N) / N = a / N + 1 := Nat.add_div_right a hN
    omega

/-- The size of the range of worker `t < N` is `extent / N` or one more, and
one more only when `N` does not divide `extent`. -/
theorem range_size_bounds (t extent N : Nat) (hN : 1 ≤ N) (ht : t < N) :
    range_start t extent N ≤ range_end t extent N ∧
    extent / N ≤ range_end t extent N - range_start t extent N ∧
    range_end t extent N - range_start t extent N ≤ extent / N + 1 ∧
    (extent % N = 0 → range_end t extent N - range_start t extent N = extent / N) := by
  have hN0 : 0 < N := by omega
  rw [range_end_eq_start_succ t extent N ht, range_start_decomp t extent N hN0,
    range_start_decomp (t + 1) extent N hN0]
  have hr : extent % N < N := Nat.mod_lt extent hN0
  have h1 : (t + 1) * (extent / N) = t * (extent / N) + extent / N := by ring
  have h2 : (t + 1) * (extent % N) = t * (extent % N) + extent % N := by ring
  have h3 := div_step (t * (extent % N)) (extent % N) N hN0 hr
  rw [h1, h2]
  have h5 : extent % N = 0 →
      (t * (extent % N) + extent % N) / N = t * (extent % N) / N := by
    intro h0
    rw [h0]
    simp
  generalize (t * (extent % N) + extent % N) / N = hi at h3 h5 ⊢
  generalize t * (extent % N) / N = lo at h3 h5 ⊢
  generalize t * (extent / N) = base
  generalize extent / N = q
  refine ⟨by omega, by omega, by omega, ?_⟩
  intro h0
  have := h5 h0
  omega

/-- The ceiling `(extent + N - 1) / N` is the floor when `N` divides `extent`
and the floor plus one otherwise. -/
theorem ceil_div_eq (extent N : Nat) (hN : 1 ≤ N) :
    (extent + N - 1) / N = if extent % N = 0 then extent / N else extent / N + 1 := by
  have hN0 : 0 < N := by omega
  have hr : extent % N < N := Nat.mod_lt extent hN0
  have he := Nat.div_add_mod extent N
  split
  · rename_i h0
    have h : extent + N - 1 = N * (extent / N) + (N - 1) := by omega
    have h6 : (N - 1) / N = 0 := Nat.div_eq_of_lt (by omega)
    rw [h, Nat.mul_add_div hN0, h6, Nat.add_zero]
  · rename_i h0
    have h : extent + N - 1 = N * (extent / N + 1) + (extent % N - 1) := by
      have : N * (extent / N + 1) = N * (extent / N) + N := by ring
      omega
    have h6 : (extent % N - 1) / N = 0 := Nat.div_eq_of_lt (by omega)
    rw [h, Nat.mul_add_div hN0, h6, Nat.add_zero]

/-- C19. For every `extent`, `N ≥ 1` and worker `t < N`, the size
`range_end t - range_start t` of the worker's range is `extent / N` (the floor)
or `(extent + N - 1) / N` (the ceiling); `range_start t ≤ range_end t`, and the
sizes of the ranges of any two workers differ by at most 1. -/
theorem range_size_floor_or_ceil (extent N t : Nat) (hN : 1 ≤ N) (ht : t < N) :
    (range_end t extent N - range_start t extent N = extent / N ∨
      range_end t extent N - range_start t extent N = (extent + N - 1) / N) ∧
    range_start t extent N ≤ range_end t extent N ∧
    ∀ u, u < N →
      range_end t extent N - range_start t extent N
        ≤ range_end u extent N - range_start u extent N + 1 ∧
      range_end u extent N - range_start u extent N
        ≤ range_end t extent N - range_start t extent N + 1 := by
  obtain ⟨h1, h2, h3, h4⟩ := range_size_bounds t extent N hN ht
  have hc := ceil_div_eq extent N hN
  refine ⟨?_, h1, ?_⟩
  · by_cases h0 : extent % N = 0
    · left
      exact h4 h0
    · rw [if_neg h0] at hc
      omega
  · intro u hu
    obtain ⟨_, g2, g3, _⟩ := range_size_bounds u extent N hN hu
    omega

/-- Witness for C19: ten rows, three workers, the middle worker. -/
theorem range_size_floor_or_ceil_witness :
    (range_end 1 10 3 - range_start 1 10 3 = 10 / 3 ∨
      range_end 1 10 3 - range_start 1 10 3 = (10 + 3 - 1) / 3) ∧
    range_start 1 10 3 ≤ range_end 1 10 3 ∧
    ∀ u, u < 3 →
      range_end 1 10 3 - range_start 1 10 3
        ≤ range_end u 10 3 - range_start u 10 3 + 1 ∧
      range_end u 10 3 - range_start u 10 3
        ≤ range_end 1 10 3 - range_start 1 10 3 + 1 :=
  range_size_floor_or_ceil 10 3 1 (by decide) (by decide)

/-! ## Exit paths of `main`: theorems -/

/-- C15. `main` prints the usage message and returns 1, without any further
stage, exactly when `argc < 4` (fewer than 3 arguments after the program
name); with `argc ≥ 4` the usage message is not among its stages, whatever the
later steps do. -/
theorem main_usage_exit (argc : Int) (map_ok grid_ok create_ok join_ok : Bool) :
    (((main argc map_ok grid_ok create_ok join_ok).1 = [main_step.usage_message] ∧
        (main argc map_ok grid_ok create_ok join_ok).2 = 1) ↔ argc < 4) ∧
    (main_step.usage_message ∉ (main argc map_ok grid_ok create_ok join_ok).1 ↔ 4 ≤ argc) := by
  unfold main
  by_cases h : argc < 4
  · simp [h]
  · have h4 : 4 ≤ argc := by omega
    simp only [h, if_false, h4, iff_true, iff_false]
    cases map_ok <;> cases grid_ok <;> cases create_ok <;> cases join_ok <;> simp

/-! ## Tiles that are not square -/

/-- C18, evaluated. A tile of 2 rows and 3 columns stamped at offset `(0, 0)`
on an image of 2 rows and 3 columns: `update_image` reads the tile at index
`contour->x * i + j`, so image pixel `(1, 0)` receives tile pixel number 2,
which is pixel `(0, 2)` of the tile, where the row-major index `1 * 3 + 0`
holds pixel number 3. On a tile of 3 rows and 2 columns the read at
`i = 2, j = 0` has index 6, outside the buffer of 6 pixels, and the call
fails. -/
theorem update_image_reads_by_tile_rows :
    (∃ img', update_image (solid 2 3 9) tile_2x3 0 0 = some img' ∧
      img'.data[(0 + 1) * 3 + (0 + 0)]? = some ⟨2, 2, 2⟩ ∧
      tile_2x3.data[1 * tile_2x3.y + 0]? = some ⟨3, 3, 3⟩) ∧
    tile_3x2.x * 2 + 0 ∈ update_image_reads tile_3x2 ∧
    tile_3x2.data.length = 6 ∧
    update_image (solid 3 2 9) tile_3x2 0 0 = none :=
  ⟨⟨⟨2, 3, [⟨0, 0, 0⟩, ⟨1, 1, 1⟩, ⟨2, 2, 2⟩, ⟨2, 2, 2⟩, ⟨3, 3, 3⟩, ⟨4, 4, 4⟩]⟩,
      by decide, by decide, by decide⟩, by decide, by decide, by decide⟩

/-! ## Positions written by the workers -/

theorem mem_loopList {α : Type} (f : Nat → List α) (x : α) :
    ∀ n lo, x ∈ loopList f n lo ↔ ∃ i, lo ≤ i ∧ i < lo + n ∧ x ∈ f i := by
  intro n
  induction n with
  | zero =>
    intro lo
    simp only [loopList, List.not_mem_nil, false_iff]
    rintro ⟨i, h1, h2, _⟩
    omega
  | succ n ih =>
    intro lo
    simp only [loopList, List.mem_append, ih]
    constructor
    · rintro (h | ⟨i, h1, h2, h3⟩)
      · exact ⟨lo, Nat.le_refl lo, by omega, h⟩
      · exact ⟨i, by omega, by omega, h3⟩
    · rintro ⟨i, h1, h2, h3⟩
      by_cases hi : i = lo
      · subst hi
        exact Or.inl h3
      · exact Or.inr ⟨i, by omega, by omega, h3⟩

/-- Two workers never share a row of their ranges. -/
theorem ranges_disjoint (t u extent N r : Nat) (ht : t < N) (hu : u < N) (hne : t ≠ u) :
    ¬ (range_start t extent N ≤ r ∧ r < range_end t extent N ∧
       range_start u extent N ≤ r ∧ r < range_end u extent N) := by
  rintro ⟨h1, h2, h3, h4⟩
  rw [range_end_eq_start_succ t extent N ht] at h2
  rw [range_end_eq_start_succ u extent N hu] at h4
  rcases Nat.lt_or_gt_of_ne hne with h | h
  · have := range_start_mono (t + 1) u extent N h
    omega
  · have := range_start_mono (u + 1) t extent N h
    omega

theorem mem_update_image_writes (image contour : ppm_image) (x y idx : Nat) :
    idx ∈ update_image_writes image contour x y ↔
      ∃ i j, i < contour.x ∧ j < contour.y ∧ idx = (x + i) * image.y + y + j := by
  unfold update_image_writes
  simp only [mem_loopList, List.mem_singleton]
  constructor
  · rintro ⟨i, _, h2, j, _, h4, h5⟩
    exact ⟨i, j, by omega, by omega, h5⟩
  · rintro ⟨i, j, h1, h2, h3⟩
    exact ⟨i, Nat.zero_le i, by omega, j, Nat.zero_le j, by omega, h3⟩

theorem mem_rescale_writes (new_image : ppm_image) (s e idx : Nat) :
    idx ∈ rescale_writes new_image s e ↔
      ∃ i j, s ≤ i ∧ i < e ∧ j < new_image.y ∧ idx = i * new_image.y + j := by
  unfold rescale_writes
  simp only [mem_loopList, List.mem_singleton]
  constructor
  · rintro ⟨i, h1, h2, j, _, h4, h5⟩
    exact ⟨i, j, h1, by omega, by omega, h5⟩
  · rintro ⟨i, j, h1, h2, h3, h4⟩
    exact ⟨i, h1, by omega, j, Nat.zero_le j, by omega, h4⟩

/-- With tiles of size `step_x` by `step_y`, an index the marching loop writes
for the rows `s .. e - 1` is the position of an offset `(a, b)` inside the
region of a cell `(i, j)` of those rows. -/
theorem march_write_position (grid : Grid) (contour_map : List ppm_image)
    (step_x step_y q s e : Nat) (image : ppm_image)
    (hdims : ∀ contour ∈ contour_map, contour.x = step_x ∧ contour.y = step_y)
    (idx : Nat) (h : idx ∈ march_writes grid contour_map step_x step_y q s e image) :
    ∃ i j a b, s ≤ i ∧ i < e ∧ j < q ∧ a < step_x ∧ b < step_y ∧
      idx = (i * step_x + a) * image.y + (j * step_y + b) := by
  unfold march_writes at h
  simp only [mem_loopList] at h
  obtain ⟨i, hi1, hi2, j, _, hj2, hmem⟩ := h
  split at hmem
  · exact absurd hmem (List.not_mem_nil _)
  · split at hmem
    · exact absurd hmem (List.not_mem_nil _)
    · rename_i k hk contour hc
      obtain ⟨hcx, hcy⟩ := hdims contour (List.getElem?_mem hc)
      rw [mem_update_image_writes] at hmem
      obtain ⟨a, b, ha, hb, hidx⟩ := hmem
      exact ⟨i, j, a, b, hi1, by omega, by omega, by omega, by omega, by omega⟩

/-- C20. With tiles of size `step_x` by `step_y`, every canvas index the
marching loop writes for cells `(i, j)` of rows `s ≤ i < e ≤ P` and columns
`j < Q` is below `x * y`, lies in a row below `P * step_x` and in a column
below `Q * step_y`; the dimensions need not be multiples of the step. -/
theorem march_writes_in_canvas (grid : Grid) (contour_map : List ppm_image)
    (step_x step_y s e : Nat) (image : ppm_image)
    (hdims : ∀ contour ∈ contour_map, contour.x = step_x ∧ contour.y = step_y)
    (he : e ≤ image.x / step_x) :
    ∀ idx ∈ march_writes grid contour_map step_x step_y (image.y / step_y) s e image,
      idx < image.x * image.y ∧
      idx / image.y < image.x / step_x * step_x ∧
      idx % image.y < image.y / step_y * step_y := by
  intro idx hmem
  obtain ⟨i, j, a, b, _, hi, hj, ha, hb, hidx⟩ :=
    march_write_position grid contour_map step_x step_y (image.y / step_y) s e image
      hdims idx hmem
  have hrow : i * step_x + a < image.x / step_x * step_x := by
    have h1 : (i + 1) * step_x ≤ image.x / step_x * step_x :=
      Nat.mul_le_mul_right step_x (by omega)
    have h2 : (i + 1) * step_x = i * step_x + step_x := by ring
    omega
  have hcol : j * step_y + b < image.y / step_y * step_y := by
    have h1 : (j + 1) * step_y ≤ image.y / step_y * step_y :=
      Nat.mul_le_mul_right step_y hj
    have h2 : (j + 1) * step_y = j * step_y + step_y := by ring
    omega
  have hx := Nat.div_mul_le_self image.x step_x
  have hy := Nat.div_mul_le_self image.y step_y
  have hcy : j * step_y + b < image.y := by omega
  have hY : 0 < image.y := by omega
  have hdiv : idx / image.y = i * step_x + a := by
    rw [hidx, Nat.add_comm, Nat.add_mul_div_right _ _ hY, Nat.div_eq_of_lt hcy, Nat.zero_add]
  have hmod : idx % image.y = j * step_y + b := by
    rw [hidx, Nat.add_comm, Nat.add_mul_mod_self_right, Nat.mod_eq_of_lt hcy]
  refine ⟨?_, by omega, by omega⟩
  have h3 : (i * step_x + a + 1) * image.y ≤ image.x * image.y :=
    Nat.mul_le_mul_right image.y (by omega)
  have h4 : (i * step_x + a + 1) * image.y = (i * step_x + a) * image.y + image.y := by ring
  omega

/-- Witness for C20: a canvas of 5 by 5 pixels, step 2, all rows; index 18 is
row 3, column 3, written for cell `(1, 1)`. -/
theorem march_writes_in_canvas_witness :
    18 ∈ march_writes grid_3x3 catalog_2x2 2 2 ((solid 5 5 9).y / 2) 0 2 (solid 5 5 9) ∧
    (18 < (solid 5 5 9).x * (solid 5 5 9).y ∧
      18 / (solid 5 5 9).y < (solid 5 5 9).x / 2 * 2 ∧
      18 % (solid 5 5 9).y < (solid 5 5 9).y / 2 * 2) :=
  ⟨by decide,
    march_writes_in_canvas grid_3x3 catalog_2x2 2 2 0 2 (solid 5 5 9) (by decide) (by decide)
      18 (by decide)⟩

/-- C13. For two distinct workers `t` and `u` among `N`, no index of the
target canvas is written by both in the downscale stage, and, with tiles of
size `step_x` by `step_y`, no index of the canvas is written by both in the
marching stage. -/
theorem workers_write_disjoint_pixels (image new_image canvas : ppm_image) (grid : Grid)
    (contour_map : List ppm_image) (step_x step_y N t u : Nat)
    (ht : t < N) (hu : u < N) (hne : t ≠ u)
    (hdims : ∀ contour ∈ contour_map, contour.x = step_x ∧ contour.y = step_y) :
    ∀ idx,
      ¬ (idx ∈ function_rescale_writes image t N new_image ∧
         idx ∈ function_rescale_writes image u N new_image) ∧
      ¬ (idx ∈ function_march_writes grid contour_map step_x step_y t N canvas ∧
         idx ∈ function_march_writes grid contour_map step_x step_y u N canvas) := by
  intro idx
  constructor
  · rintro ⟨h1, h2⟩
    unfold function_rescale_writes at h1 h2
    split at h1
    · rename_i hr
      rw [if_pos hr] at h2
      rw [mem_rescale_writes] at h1 h2
      obtain ⟨i, j, a1, a2, a3, a4⟩ := h1
      obtain ⟨i', j', b1, b2, b3, b4⟩ := h2
      have hrow := (row_index_iff new_image.y i j i' 0 new_image.y a3 (Nat.le_refl _)).mp
        ⟨by omega, by omega⟩
      obtain ⟨hii, _⟩ := hrow
      subst hii
      exact ranges_disjoint t u new_image.x N i ht hu hne ⟨a1, a2, b1, b2⟩
    · exact absurd h1 (List.not_mem_nil _)
  · rintro ⟨h1, h2⟩
    unfold function_march_writes at h1 h2
    obtain ⟨i, j, a, b, a1, a2, a3, a4, a5, a6⟩ := march_write_position grid contour_map
      step_x step_y _ _ _ canvas hdims idx h1
    obtain ⟨i', j', a', b', b1, b2, b3, b4, b5, b6⟩ := march_write_position grid contour_map
      step_x step_y _ _ _ canvas hdims idx h2
    have hy := Nat.div_mul_le_self canvas.y step_y
    have hc : j * step_y + b < canvas.y := by
      have h1 : (j + 1) * step_y ≤ canvas.y / step_y * step_y :=
        Nat.mul_le_mul_right step_y a3
      have h2 : (j + 1) * step_y = j * step_y + step_y := by ring
      omega
    have hc' : j' * step_y + b' < canvas.y := by
      have h1 : (j' + 1) * step_y ≤ canvas.y / step_y * step_y :=
        Nat.mul_le_mul_right step_y b3
      have h2 : (j' + 1) * step_y = j' * step_y + step_y := by ring
      omega
    have hrow := (row_index_iff canvas.y (i * step_x + a) (j * step_y + b)
      (i' * step_x + a') 0 canvas.y hc (Nat.le_refl _)).mp ⟨by omega, by omega⟩
    have hcell := (row_index_iff step_x i a i' 0 step_x a4 (Nat.le_refl _)).mp
      ⟨by omega, by omega⟩
    obtain ⟨hii, _⟩ := hcell
    subst hii
    exact ranges_disjoint t u (canvas.x / step_x) N i ht hu hne ⟨a1, a2, b1, b2⟩

/-- Witness for C13: a source of 2049 rows, a target of 2 by 2 pixels and a
canvas of 5 by 5 pixels with step 2, the two workers of a run with `N = 2`.
Index 2 of the target is written by worker 1 in the downscale stage, index 0
of the canvas by worker 0 in the marching stage. -/
theorem workers_write_disjoint_pixels_witness :
    2 ∈ function_rescale_writes (solid 2049 1 9) 1 2 (solid 2 2 0) ∧
    0 ∈ function_march_writes grid_3x3 catalog_2x2 2 2 0 2 (solid 5 5 9) ∧
    ¬ (2 ∈ function_rescale_writes (solid 2049 1 9) 0 2 (solid 2 2 0) ∧
       2 ∈ function_rescale_writes (solid 2049 1 9) 1 2 (solid 2 2 0)) ∧
    ¬ (0 ∈ function_march_writes grid_3x3 catalog_2x2 2 2 0 2 (solid 5 5 9) ∧
       0 ∈ function_march_writes grid_3x3 catalog_2x2 2 2 1 2 (solid 5 5 9)) :=
  ⟨by decide, by decide,
    (workers_write_disjoint_pixels (solid 2049 1 9) (solid 2 2 0) (solid 5 5 9) grid_3x3
      catalog_2x2 2 2 2 0 1 (by decide) (by decide) (by decide) (by decide) 2).1,
    (workers_write_disjoint_pixels (solid 2049 1 9) (solid 2 2 0) (solid 5 5 9) grid_3x3
      catalog_2x2 2 2 2 0 1 (by decide) (by decide) (by decide) (by decide) 0).2⟩

/-! ## Grid cells written while sampling and read while marching -/

theorem mem_sample_ops (image : ppm_image) (step_x step_y p q s e : Nat)
    (op : Nat × Nat × Nat) :
    op ∈ sample_ops image step_x step_y p q s e ↔
      (∃ i j, s ≤ i ∧ i < e ∧ j < q ∧ op = (interior_index image step_x step_y i j, i, j)) ∨
      (∃ i, s ≤ i ∧ i < e ∧ op = (last_column_index image step_x i, i, q)) ∨
      (∃ j, s ≤ j ∧ j < e ∧ op = (last_row_index image step_y j, p, j)) := by
  unfold sample_ops
  simp only [List.mem_append, mem_loopList, List.mem_singleton]
  constructor
  · rintro (⟨i, h1, h2, j, _, h4, h5⟩ | ⟨i, h1, h2, h3⟩ | ⟨j, h1, h2, h3⟩)
    · exact Or.inl ⟨i, j, h1, by omega, by omega, h5⟩
    · exact Or.inr (Or.inl ⟨i, h1, by omega, h3⟩)
    · exact Or.inr (Or.inr ⟨j, h1, by omega, h3⟩)
  · rintro (⟨i, j, h1, h2, h3, h4⟩ | ⟨i, h1, h2, h3⟩ | ⟨j, h1, h2, h3⟩)
    · exact Or.inl ⟨i, h1, by omega, j, Nat.zero_le j, by omega, h4⟩
    · exact Or.inr (Or.inl ⟨i, h1, by omega, h3⟩)
    · exact Or.inr (Or.inr ⟨j, h1, by omega, h3⟩)

/-- The cells worker `t` writes while sampling: the cells of columns `0 .. Q`
in the rows of its range, and the cells of row `P` in the columns of its row
range. -/
theorem mem_function_sample_writes (image : ppm_image) (step_x step_y t N a b : Nat) :
    (a, b) ∈ function_sample_writes image step_x step_y t N ↔
      (range_start t (image.x / step_x) N ≤ a ∧ a < range_end t (image.x / step_x) N ∧
        b ≤ image.y / step_y) ∨
      (a = image.x / step_x ∧ range_start t (image.x / step_x) N ≤ b ∧
        b < range_end t (image.x / step_x) N) := by
  unfold function_sample_writes function_sample_ops
  simp only [List.mem_map, mem_sample_ops, op_cell]
  constructor
  · rintro ⟨op, (⟨i, j, h1, h2, h3, h4⟩ | ⟨i, h1, h2, h3⟩ | ⟨j, h1, h2, h3⟩), hc⟩
    · subst h4
      simp only [Prod.mk.injEq] at hc
      exact Or.inl ⟨by omega, by omega, by omega⟩
    · subst h3
      simp only [Prod.mk.injEq] at hc
      exact Or.inl ⟨by omega, by omega, by omega⟩
    · subst h3
      simp only [Prod.mk.injEq] at hc
      exact Or.inr ⟨by omega, by omega, by omega⟩
  · rintro (⟨h1, h2, h3⟩ | ⟨h1, h2, h3⟩)
    · by_cases hb : b < image.y / step_y
      · exact ⟨(interior_index image step_x step_y a b, a, b),
          Or.inl ⟨a, b, h1, h2, hb, rfl⟩, rfl⟩
      · have hbq : b = image.y / step_y := by omega
        subst hbq
        exact ⟨(last_column_index image step_x a, a, image.y / step_y),
          Or.inr (Or.inl ⟨a, h1, h2, rfl⟩), rfl⟩
    · subst h1
      exact ⟨(last_row_index image step_y b, image.x / step_x, b),
        Or.inr (Or.inr ⟨b, h2, h3, rfl⟩), rfl⟩

theorem mem_march_reads (q s e a b : Nat) :
    (a, b) ∈ march_reads q s e ↔
      ∃ i j, s ≤ i ∧ i < e ∧ j < q ∧
        ((a, b) = (i, j) ∨ (a, b) = (i, j + 1) ∨ (a, b) = (i + 1, j + 1) ∨
          (a, b) = (i + 1, j)) := by
  unfold march_reads
  simp only [mem_loopList, List.mem_cons, List.mem_singleton, List.not_mem_nil, or_false]
  constructor
  · rintro ⟨i, h1, h2, j, _, h4, h5⟩
    exact ⟨i, j, h1, by omega, by omega, h5⟩
  · rintro ⟨i, j, h1, h2, h3, h4⟩
    exact ⟨i, h1, by omega, j, Nat.zero_le j, by omega, h4⟩

/-- C14, refuted as stated. On the white canvas of 16 by 16 pixels with step 8
(`P = Q = 2`) and two workers, worker 0 (row range `[0, 1)`) writes
`grid[2][0]` and worker 1 (row range `[1, 2)`) writes `grid[2][1]`: each
writes a cell of row 2, outside its own row range, and the rows written by
the two workers are not disjoint. The passes are run on a fresh grid whose
bytes hold 7. -/
theorem sample_writes_share_row_p :
    range_start 0 (canvas_16x16.x / STEP) 2 = 0 ∧ range_end 0 (canvas_16x16.x / STEP) 2 = 1 ∧
    range_start 1 (canvas_16x16.x / STEP) 2 = 1 ∧ range_end 1 (canvas_16x16.x / STEP) 2 = 2 ∧
    (2, 0) ∈ function_sample_writes canvas_16x16 STEP STEP 0 2 ∧
    (2, 1) ∈ function_sample_writes canvas_16x16 STEP STEP 1 2 ∧
    function_sample canvas_16x16 STEP STEP SIGMA 0 2 (fresh_grid 7 3 3)
      = some [[0, 0, 0], [7, 7, 7], [0, 7, 7]] ∧
    function_sample canvas_16x16 STEP STEP SIGMA 1 2 (fresh_grid 7 3 3)
      = some [[7, 7, 7], [0, 0, 0], [7, 0, 7]] :=
  ⟨by decide, by decide, by decide, by decide, by decide, by decide, by decide, by decide⟩

/-- C14, amended. While sampling, worker `t` writes only cells in the rows of
its own range `[range_start t, range_end t)` and cells of the boundary row
`P`; the sets of grid cells written by two distinct workers are disjoint. -/
theorem sample_writes_cells_disjoint (image : ppm_image) (step_x step_y N t u : Nat)
    (ht : t < N) (hu : u < N) (hne : t ≠ u) :
    (∀ c ∈ function_sample_writes image step_x step_y t N,
      (range_start t (image.x / step_x) N ≤ c.1 ∧ c.1 < range_end t (image.x / step_x) N) ∨
        c.1 = image.x / step_x) ∧
    ∀ c, ¬ (c ∈ function_sample_writes image step_x step_y t N ∧
            c ∈ function_sample_writes image step_x step_y u N) := by
  have het := range_end_le t (image.x / step_x) N
  have heu := range_end_le u (image.x / step_x) N
  constructor
  · rintro ⟨a, b⟩ hc
    rcases (mem_function_sample_writes image step_x step_y t N a b).mp hc with h | h
    · exact Or.inl ⟨h.1, h.2.1⟩
    · exact Or.inr h.1
  · rintro ⟨a, b⟩ ⟨h1, h2⟩
    rcases (mem_function_sample_writes image step_x step_y t N a b).mp h1 with h | h <;>
    rcases (mem_function_sample_writes image step_x step_y u N a b).mp h2 with g | g
    · exact ranges_disjoint t u (image.x / step_x) N a ht hu hne ⟨h.1, h.2.1, g.1, g.2.1⟩
    · omega
    · omega
    · exact ranges_disjoint t u (image.x / step_x) N b ht hu hne ⟨h.2.1, h.2.2, g.2.1, g.2.2⟩

/-- Witness for the amended C14: the canvas of 16 by 16 pixels, two workers. -/
theorem sample_writes_cells_disjoint_witness :
    (∀ c ∈ function_sample_writes canvas_16x16 STEP STEP 0 2,
      (range_start 0 (canvas_16x16.x / STEP) 2 ≤ c.1 ∧
        c.1 < range_end 0 (canvas_16x16.x / STEP) 2) ∨
        c.1 = canvas_16x16.x / STEP) ∧
    ∀ c, ¬ (c ∈ function_sample_writes canvas_16x16 STEP STEP 0 2 ∧
            c ∈ function_sample_writes canvas_16x16 STEP STEP 1 2) :=
  sample_writes_cells_disjoint canvas_16x16 STEP STEP 2 0 1 (by decide) (by decide) (by decide)

/-- With at least as many rows as workers, every worker has a row. -/
theorem range_nonempty (t extent N : Nat) (hN : 1 ≤ N) (ht : t < N) (hext : N ≤ extent) :
    range_start t extent N < range_end t extent N := by
  obtain ⟨_, h2, _, _⟩ := range_size_bounds t extent N hN ht
  have h3 : 0 < extent / N := Nat.div_pos hext (by omega)
  omega

/-- C17. For `N ≥ 2` workers, `P ≥ N` rows and `Q ≥ 1` columns of cells: the
marching pass of a worker `t < N - 1` reads, at its last row
`i = range_end t - 1`, the cell `grid[i + 1][0]` of row
`i + 1 = range_end t = range_start (t + 1)`; that row lies in the range of
worker `t + 1`, not in the range of worker `t`, and the cell is written by the
sampling pass of worker `t + 1`, not by that of worker `t`. The marching pass
of the last worker reads `grid[P][0]`, which the sampling pass of worker 0
writes; a cell `grid[P][j]` is written by worker `u` exactly when `j` is in
the row range of `u`. -/
theorem march_reads_other_workers_cells (image : ppm_image) (step_x step_y N t : Nat)
    (hN : 2 ≤ N) (hP : N ≤ image.x / step_x) (hQ : 0 < image.y / step_y)
    (ht : t + 1 < N) :
    (range_start t (image.x / step_x) N ≤ range_end t (image.x / step_x) N - 1 ∧
      range_end t (image.x / step_x) N - 1 < range_end t (image.x / step_x) N ∧
      range_end t (image.x / step_x) N - 1 + 1 = range_start (t + 1) (image.x / step_x) N ∧
      (range_end t (image.x / step_x) N - 1 + 1, 0)
        ∈ function_march_reads image step_x step_y t N ∧
      ¬ (range_start t (image.x / step_x) N ≤ range_end t (image.x / step_x) N - 1 + 1 ∧
          range_end t (image.x / step_x) N - 1 + 1 < range_end t (image.x / step_x) N) ∧
      (range_start (t + 1) (image.x / step_x) N ≤ range_end t (image.x / step_x) N - 1 + 1 ∧
        range_end t (image.x / step_x) N - 1 + 1 < range_end (t + 1) (image.x / step_x) N) ∧
      (range_end t (image.x / step_x) N - 1 + 1, 0)
        ∈ function_sample_writes image step_x step_y (t + 1) N ∧
      (range_end t (image.x / step_x) N - 1 + 1, 0)
        ∉ function_sample_writes image step_x step_y t N) ∧
    ((image.x / step_x, 0) ∈ function_march_reads image step_x step_y (N - 1) N ∧
      (image.x / step_x, 0) ∈ function_sample_writes image step_x step_y 0 N ∧
      (image.x / step_x, 0) ∉ function_sample_writes image step_x step_y (N - 1) N) ∧
    (∀ u j, (image.x / step_x, j) ∈ function_sample_writes image step_x step_y u N ↔
      range_start u (image.x / step_x) N ≤ j ∧ j < range_end u (image.x / step_x) N) := by
  have hN1 : 1 ≤ N := by omega
  have htN : t < N := by omega
  have hne := range_nonempty t (image.x / step_x) N hN1 htN hP
  have hne1 := range_nonempty (t + 1) (image.x / step_x) N hN1 ht hP
  have hne0 := range_nonempty 0 (image.x / step_x) N hN1 (by omega) hP
  have hneL := range_nonempty (N - 1) (image.x / step_x) N hN1 (by omega) hP
  have hes := range_end_eq_start_succ t (image.x / step_x) N htN
  have hle1 := range_end_le (t + 1) (image.x / step_x) N
  have hs0 := range_start_zero (image.x / step_x) N
  have heL : range_end (N - 1) (image.x / step_x) N = image.x / step_x := by
    rw [range_end_eq_start_succ (N - 1) (image.x / step_x) N (by omega)]
    have : N - 1 + 1 = N := by omega
    rw [this, range_start_last _ _ hN1]
  have hmono : range_start 1 (image.x / step_x) N ≤ range_start (N - 1) (image.x / step_x) N :=
    range_start_mono 1 (N - 1) _ _ (by omega)
  have he0 := range_end_eq_start_succ 0 (image.x / step_x) N (by omega)
  simp only [Nat.zero_add] at he0
  refine ⟨⟨by omega, by omega, by omega, ?_, by omega, by omega, ?_, ?_⟩, ⟨?_, ?_, ?_⟩, ?_⟩
  · unfold function_march_reads
    rw [mem_march_reads]
    exact ⟨range_end t (image.x / step_x) N - 1, 0, by omega, by omega, hQ,
      Or.inr (Or.inr (Or.inr rfl))⟩
  · rw [mem_function_sample_writes]
    exact Or.inl ⟨by omega, by omega, Nat.zero_le _⟩
  · rw [mem_function_sample_writes]
    omega
  · unfold function_march_reads
    rw [mem_march_reads]
    refine ⟨image.x / step_x - 1, 0, by omega, by omega, hQ, Or.inr (Or.inr (Or.inr ?_))⟩
    have : image.x / step_x - 1 + 1 = image.x / step_x := by omega
    rw [this]
  · rw [mem_function_sample_writes]
    exact Or.inr ⟨rfl, by omega, by omega⟩
  · rw [mem_function_sample_writes]
    omega
  · intro u j
    rw [mem_function_sample_writes]
    have := range_end_le u (image.x / step_x) N
    constructor
    · rintro (h | h)
      · omega
      · exact h.2
    · intro h
      exact Or.inr ⟨rfl, h⟩

/-- Witness for C17: the canvas of 16 by 16 pixels, two workers, worker 0. -/
theorem march_reads_other_workers_cells_witness :
    (1, 0) ∈ function_march_reads canvas_16x16 STEP STEP 0 2 ∧
    (1, 0) ∈ function_sample_writes canvas_16x16 STEP STEP 1 2 ∧
    (1, 0) ∉ function_sample_writes canvas_16x16 STEP STEP 0 2 ∧
    (2, 0) ∈ function_march_reads canvas_16x16 STEP STEP 1 2 ∧
    (2, 0) ∈ function_sample_writes canvas_16x16 STEP STEP 0 2 :=
  have h := march_reads_other_workers_cells canvas_16x16 STEP STEP 2 0
    (by decide) (by decide) (by decide) (by decide)
  ⟨h.1.2.2.2.1, h.1.2.2.2.2.2.2.1, h.1.2.2.2.2.2.2.2, h.2.1.1, h.2.1.2.1⟩

/-! ## Downscale stage: theorems -/

/-- One row of the resampling loop. -/
theorem rescale_row_spec (sample_bicubic : ppm_image → Nat → Nat → ppm_pixel)
    (image : ppm_image) (i Y : Nat) (img : ppm_image)
    (hB : i * Y + Y ≤ img.data.length) :
    ∃ img', forLoop (fun j im => pixel_set im (i * Y + j) (sample_bicubic image i j)) Y 0 img
        = some img' ∧
      img'.x = img.x ∧ img'.y = img.y ∧ img'.data.length = img.data.length ∧
      ∀ m, img'.data[m]? =
        if i * Y ≤ m ∧ m < i * Y + Y then some (sample_bicubic image i (m - i * Y))
        else img.data[m]? := by
  have h := forLoop_rule
    (fun j im => pixel_set im (i * Y + j) (sample_bicubic image i j))
    (fun j t => t.x = img.x ∧ t.y = img.y ∧ t.data.length = img.data.length ∧
      ∀ m, t.data[m]? =
        if i * Y ≤ m ∧ m < i * Y + j then some (sample_bicubic image i (m - i * Y))
        else img.data[m]?)
    Y 0 img
    ⟨rfl, rfl, rfl, fun m => by rw [if_neg (by omega)]⟩
    (by
      intro j t _ hj ⟨hx, hy, hl, hc⟩
      obtain ⟨t', e1, e2, e3, e4, e5⟩ := pixel_set_spec t (i * Y + j)
        (sample_bicubic image i j) (by omega)
      refine ⟨t', e1, by omega, by omega, by omega, ?_⟩
      intro m
      rw [e5 m]
      by_cases hm : m = i * Y + j
      · subst hm
        rw [if_pos rfl, if_pos (by omega)]
        have : i * Y + j - i * Y = j := by omega
        rw [this]
      · rw [if_neg hm, hc m]
        by_cases h1 : i * Y ≤ m ∧ m < i * Y + j
        · rw [if_pos h1, if_pos (by omega)]
        · rw [if_neg h1, if_neg (by omega)])
  obtain ⟨img', e1, e2, e3, e4, e5⟩ := h
  refine ⟨img', e1, e2, e3, e4, ?_⟩
  intro m
  have := e5 m
  rw [Nat.zero_add] at this
  exact this

/-- The resampling loop over the rows `s .. e - 1` of the target canvas: the
pixel at row `r`, column `c` of those rows becomes `sample_bicubic image r c`,
every other pixel is unchanged. -/
theorem rescale_rows_spec (sample_bicubic : ppm_image → Nat → Nat → ppm_pixel)
    (image new_image : ppm_image) (s e : Nat) (hse : s ≤ e)
    (he : e * new_image.y ≤ new_image.data.length) :
    ∃ t', rescale_rows sample_bicubic image new_image s e = some t' ∧
      t'.x = new_image.x ∧ t'.y = new_image.y ∧
      t'.data.length = new_image.data.length ∧
      ∀ r c, c < new_image.y → t'.data[r * new_image.y + c]? =
        if s ≤ r ∧ r < e then some (sample_bicubic image r c)
        else new_image.data[r * new_image.y + c]? := by
  have h := forLoop_rule
    (fun i img => forLoop (fun j img =>
      pixel_set img (i * new_image.y + j) (sample_bicubic image i j)) new_image.y 0 img)
    (fun m t => t.x = new_image.x ∧ t.y = new_image.y ∧
      t.data.length = new_image.data.length ∧
      ∀ r c, c < new_image.y → t.data[r * new_image.y + c]? =
        if s ≤ r ∧ r < m then some (sample_bicubic image r c)
        else new_image.data[r * new_image.y + c]?)
    (e - s) s new_image
    ⟨rfl, rfl, rfl, fun r c _ => by rw [if_neg (by omega)]⟩
    (by
      intro i t hi1 hi2 ⟨e1, e2, e3, e4⟩
      have hrow : (i + 1) * new_image.y ≤ e * new_image.y :=
        Nat.mul_le_mul_right new_image.y (by omega)
      have hrow2 : (i + 1) * new_image.y = i * new_image.y + new_image.y := by ring
      obtain ⟨t', f1, f2, f3, f4, f5⟩ := rescale_row_spec sample_bicubic image i
        new_image.y t (by omega)
      refine ⟨t', f1, by omega, by omega, by omega, ?_⟩
      intro r c hc
      rw [f5 (r * new_image.y + c)]
      have hiff := row_index_iff new_image.y r c i 0 new_image.y hc (Nat.le_refl _)
      simp only [Nat.add_zero] at hiff
      by_cases hin : r = i
      · subst hin
        rw [if_pos (by omega), if_pos (by omega)]
        have : r * new_image.y + c - r * new_image.y = c := by omega
        rw [this]
      · rw [if_neg (fun h => hin (hiff.mp h).1), e4 r c hc]
        by_cases h1 : s ≤ r ∧ r < i
        · rw [if_pos h1, if_pos (by omega)]
        · rw [if_neg h1, if_neg (by omega)])
  obtain ⟨t', e1, e2, e3, e4, e5⟩ := h
  refine ⟨t', e1, e2, e3, e4, ?_⟩
  have hs : s + (e - s) = e := by omega
  rw [hs] at e5
  exact e5

/-- The downscale stages of all `N ≥ 1` workers of a source that needs
rescaling: every pixel of the target canvas is resampled. -/
theorem rescale_all_spec (sample_bicubic : ppm_image → Nat → Nat → ppm_pixel)
    (image new_image : ppm_image) (N : Nat) (hN : 1 ≤ N)
    (hr : needs_rescale image = true)
    (hlen : new_image.data.length = new_image.x * new_image.y) :
    ∃ t', rescale_all sample_bicubic image N new_image = some t' ∧
      t'.x = new_image.x ∧ t'.y = new_image.y ∧
      t'.data.length = new_image.data.length ∧
      ∀ r c, r < new_image.x → c < new_image.y →
        t'.data[r * new_image.y + c]? = some (sample_bicubic image r c) := by
  have h := forLoop_rule
    (fun t img => function_rescale sample_bicubic image t N img)
    (fun t u => u.x = new_image.x ∧ u.y = new_image.y ∧
      u.data.length = new_image.data.length ∧
      ∀ r c, c < new_image.y → u.data[r * new_image.y + c]? =
        if r < range_start t new_image.x N then some (sample_bicubic image r c)
        else new_image.data[r * new_image.y + c]?)
    N 0 new_image
    ⟨rfl, rfl, rfl, fun r c _ => by rw [range_start_zero, if_neg (by omega)]⟩
    (by
      intro t u _ ht ⟨e1, e2, e3, e4⟩
      have htN : t < N := by omega
      have hse := range_start_le_end t new_image.x N htN
      have hep := range_end_le t new_image.x N
      have hes := range_end_eq_start_succ t new_image.x N htN
      have hrows : range_end t new_image.x N * new_image.y ≤ new_image.x * new_image.y :=
        Nat.mul_le_mul_right new_image.y hep
      obtain ⟨u', f1, f2, f3, f4, f5⟩ := rescale_rows_spec sample_bicubic image u
        (range_start t new_image.x N) (range_end t new_image.x N) hse
        (by rw [e2, e3, hlen]; exact hrows)
      refine ⟨u', ?_, by omega, by omega, by omega, ?_⟩
      · simp only [function_rescale, hr, if_true, e1]
        exact f1
      · intro r c hc
        have := f5 r c (by rw [e2]; exact hc)
        rw [e2] at this
        rw [this, e4 r c hc, ← hes]
        split_ifs <;> first | rfl | omega)
  obtain ⟨t', e1, e2, e3, e4, e5⟩ := h
  refine ⟨t', e1, e2, e3, e4, ?_⟩
  intro r c hr hc
  have := e5 r c hc
  rw [Nat.zero_add, range_start_last _ _ hN, if_pos hr] at this
  exact this

theorem forLoop_some {σ : Type} (n lo : Nat) (s : σ) :
    forLoop (fun _ t => some t) n lo s = some s := by
  induction n generalizing lo with
  | zero => rfl
  | succ n ih => simp [forLoop, ih]

/-- C11. The downscale stage resamples exactly when the source has
`x > 2048` or `y > 2048`: then the `N ≥ 1` workers fill the whole target
canvas with `sample_bicubic` pixels and the canvas of every worker is that
target; otherwise (`x ≤ 2048` and `y ≤ 2048`) no worker writes anything, the
canvas every worker uses afterwards is the source image itself, and the run
of `main` is the sampling and marching of the source image. -/
theorem downscale_bypass (sample_bicubic : ppm_image → Nat → Nat → ppm_pixel)
    (image new_image : ppm_image) (contour_map : List ppm_image) (N : Nat) (grid : Grid)
    (hN : 1 ≤ N) (hlen : new_image.data.length = new_image.x * new_image.y) :
    (needs_rescale image = true ↔ (image.x > 2048 ∨ image.y > 2048)) ∧
    ((image.x > 2048 ∨ image.y > 2048) →
      ∃ target, rescale_all sample_bicubic image N new_image = some target ∧
        function_canvas image target = target ∧
        target.x = new_image.x ∧ target.y = new_image.y ∧
        ∀ r c, r < new_image.x → c < new_image.y →
          target.data[r * new_image.y + c]? = some (sample_bicubic image r c)) ∧
    (image.x ≤ 2048 ∧ image.y ≤ 2048 →
      (∀ t, function_rescale_writes image t N new_image = []) ∧
      (∀ t, function_rescale sample_bicubic image t N new_image = some new_image) ∧
      rescale_all sample_bicubic image N new_image = some new_image ∧
      function_canvas image new_image = image ∧
      main_run sample_bicubic image contour_map N new_image grid
        = sample_then_march image contour_map STEP STEP SIGMA N grid) := by
  have hiff : needs_rescale image = true ↔ (image.x > 2048 ∨ image.y > 2048) := by
    simp [needs_rescale, RESCALE_X, RESCALE_Y]
  refine ⟨hiff, ?_, ?_⟩
  · intro h
    have hr := hiff.mpr h
    obtain ⟨t', e1, e2, e3, _, e5⟩ := rescale_all_spec sample_bicubic image new_image N hN
      hr hlen
    refine ⟨t', e1, ?_, e2, e3, e5⟩
    simp [function_canvas, hr]
  · rintro ⟨hx, hy⟩
    have hr : needs_rescale image = false := by
      cases hb : needs_rescale image
      · rfl
      · have := hiff.mp hb
        omega
    have hall : rescale_all sample_bicubic image N new_image = some new_image := by
      unfold rescale_all
      have hbody : (fun t img => function_rescale sample_bicubic image t N img)
          = (fun _ img => some img) := by
        funext t img
        simp [function_rescale, hr]
      rw [hbody]
      exact forLoop_some N 0 new_image
    refine ⟨?_, ?_, hall, ?_, ?_⟩
    · intro t
      simp [function_rescale_writes, hr]
    · intro t
      simp [function_rescale, hr]
    · simp [function_canvas, hr]
    · simp [main_run, hall, function_canvas, hr]

/-- Witness for C11: a source of 5 by 5 pixels, a target of 6 by 6 pixels,
two workers. -/
theorem downscale_bypass_witness :
    rescale_all (fun _ _ _ => ⟨1, 2, 3⟩) (solid 5 5 9) 2 (solid 6 6 0) = some (solid 6 6 0) ∧
    function_canvas (solid 5 5 9) (solid 6 6 0) = solid 5 5 9 ∧
    main_run (fun _ _ _ => ⟨1, 2, 3⟩) (solid 5 5 9) catalog_2x2 2 (solid 6 6 0) grid_3x3
      = sample_then_march (solid 5 5 9) catalog_2x2 STEP STEP SIGMA 2 grid_3x3 :=
  have h := (downscale_bypass (fun _ _ _ => ⟨1, 2, 3⟩) (solid 5 5 9) (solid 6 6 0)
    catalog_2x2 2 grid_3x3 (by decide) (by decide)).2.2 ⟨by decide, by decide⟩
  ⟨h.2.2.1, h.2.2.2.1, h.2.2.2.2⟩

/-! ## Sampling steps commute -/

theorem grid_set_some_inv (g : Grid) (i j v : Nat) (g' : Grid)
    (h : grid_set g i j v = some g') :
    ∃ row, g[i]? = some row ∧ j < row.length ∧ g' = g.set i (row.set j v) := by
  unfold grid_set at h
  split at h
  · exact absurd h (by simp)
  · rename_i row hrow
    split at h
    · rename_i hj
      simp only [Option.some.injEq] at h
      exact ⟨row, hrow, hj, h.symm⟩
    · exact absurd h (by simp)

theorem grid_set_none_inv (g : Grid) (i j v : Nat) (h : grid_set g i j v = none) :
    g[i]? = none ∨ ∃ row, g[i]? = some row ∧ row.length ≤ j := by
  unfold grid_set at h
  split at h
  · rename_i hrow
    exact Or.inl hrow
  · rename_i row hrow
    split at h
    · exact absurd h (by simp)
    · rename_i hj
      exact Or.inr ⟨row, hrow, by omega⟩

theorem grid_set_eq_some (g : Grid) (i j v : Nat) (row : List Nat)
    (hrow : g[i]? = some row) (hj : j < row.length) :
    grid_set g i j v = some (g.set i (row.set j v)) := by
  simp [grid_set, hrow, hj]

theorem getElem?_lt_length {α : Type} (l : List α) (i : Nat) (a : α) (h : l[i]? = some a) :
    i < l.length := by
  by_contra hn
  rw [List.getElem?_eq_none (by omega)] at h
  exact absurd h (by simp)

/-- A write that fails on a grid fails after any other write. -/
theorem grid_set_none_after (g : Grid) (i1 j1 v1 i2 j2 v2 : Nat)
    (h1 : grid_set g i1 j1 v1 = none) :
    (grid_set g i2 j2 v2).bind (fun g' => grid_set g' i1 j1 v1) = none := by
  cases h2 : grid_set g i2 j2 v2 with
  | none => rfl
  | some g' =>
    simp only [Option.some_bind]
    obtain ⟨row2, hr2, hj2, hg'⟩ := grid_set_some_inv g i2 j2 v2 g' h2
    have hi2 := getElem?_lt_length g i2 row2 hr2
    subst hg'
    unfold grid_set
    rw [List.getElem?_set]
    by_cases hi : i2 = i1
    · subst hi
      simp only [if_true, hi2]
      rcases grid_set_none_inv g i2 j1 v1 h1 with h | ⟨row, h, hlen⟩
      · rw [h] at hr2
        exact absurd hr2 (by simp)
      · rw [h] at hr2
        simp only [Option.some.injEq] at hr2
        subst hr2
        simp only [List.length_set]
        rw [if_neg (by omega)]
    · simp only [hi, if_false]
      rcases grid_set_none_inv g i1 j1 v1 h1 with h | ⟨row, h, hlen⟩
      · rw [h]
      · rw [h]
        simp only
        rw [if_neg (by omega)]

/-- Two writes to different cells, both inside the grid, commute. -/
theorem grid_set_comm (g g1 g2 : Grid) (i1 j1 v1 i2 j2 v2 : Nat)
    (h1 : grid_set g i1 j1 v1 = some g1) (h2 : grid_set g i2 j2 v2 = some g2)
    (hne : ¬ (i1 = i2 ∧ j1 = j2)) :
    grid_set g1 i2 j2 v2 = grid_set g2 i1 j1 v1 := by
  obtain ⟨row1, hr1, hj1, hg1⟩ := grid_set_some_inv g i1 j1 v1 g1 h1
  obtain ⟨row2, hr2, hj2, hg2⟩ := grid_set_some_inv g i2 j2 v2 g2 h2
  have hi1 := getElem?_lt_length g i1 row1 hr1
  have hi2 := getElem?_lt_length g i2 row2 hr2
  subst hg1
  subst hg2
  by_cases hi : i1 = i2
  · subst hi
    rw [hr1] at hr2
    simp only [Option.some.injEq] at hr2
    subst hr2
    have hj : j1 ≠ j2 := fun h => hne ⟨rfl, h⟩
    rw [grid_set_eq_some (g.set i1 (row1.set j1 v1)) i1 j2 v2 (row1.set j1 v1)
        (by rw [List.getElem?_set]; simp [hi1]) (by rw [List.length_set]; exact hj2),
      grid_set_eq_some (g.set i1 (row1.set j2 v2)) i1 j1 v1 (row1.set j2 v2)
        (by rw [List.getElem?_set]; simp [hi1]) (by rw [List.length_set]; exact hj1),
      List.set_set, List.set_set, List.set_comm v1 v2 row1 hj]
  · have hi' : ¬ i2 = i1 := fun h => hi h.symm
    rw [grid_set_eq_some (g.set i1 (row1.set j1 v1)) i2 j2 v2 row2
        (by rw [List.getElem?_set]; simp [hi, hr2]) hj2,
      grid_set_eq_some (g.set i2 (row2.set j2 v2)) i1 j1 v1 row1
        (by rw [List.getElem?_set]; simp [hi', hr1]) hj1,
      List.set_comm _ _ g hi]

theorem grid_set_bind_comm (g : Grid) (i1 j1 v1 i2 j2 v2 : Nat)
    (hne : ¬ (i1 = i2 ∧ j1 = j2)) :
    (grid_set g i1 j1 v1).bind (fun g' => grid_set g' i2 j2 v2)
      = (grid_set g i2 j2 v2).bind (fun g' => grid_set g' i1 j1 v1) := by
  cases h1 : grid_set g i1 j1 v1 with
  | none =>
    rw [← h1, grid_set_none_after g i1 j1 v1 i2 j2 v2 h1, h1]
    rfl
  | some g1 =>
    cases h2 : grid_set g i2 j2 v2 with
    | none =>
      have := grid_set_none_after g i2 j2 v2 i1 j1 v1 h2
      rw [h1] at this
      rw [this]
      rfl
    | some g2 =>
      simp only [Option.some_bind]
      exact grid_set_comm g g1 g2 i1 j1 v1 i2 j2 v2 h1 h2 hne

/-- Two sampling steps that write different cells commute, failures included. -/
theorem sample_point_comm (image : ppm_image) (sigma idx1 i1 j1 idx2 i2 j2 : Nat) (g : Grid)
    (hne : ¬ (i1 = i2 ∧ j1 = j2)) :
    (sample_point image sigma idx1 i1 j1 g).bind (sample_point image sigma idx2 i2 j2)
      = (sample_point image sigma idx2 i2 j2 g).bind (sample_point image sigma idx1 i1 j1) := by
  unfold sample_point
  cases h1 : image.data[idx1]? with
  | none =>
    simp only [Option.none_bind]
    cases h2 : image.data[idx2]? with
    | none => rfl
    | some p2 =>
      simp only
      cases grid_set g i2 j2 (binarize sigma p2) <;> rfl
  | some p1 =>
    cases h2 : image.data[idx2]? with
    | none =>
      simp only [Option.none_bind]
      cases grid_set g i1 j1 (binarize sigma p1) <;> rfl
    | some p2 =>
      simp only
      exact grid_set_bind_comm g i1 j1 (binarize sigma p1) i2 j2 (binarize sigma p2) hne

/-! ## The sampling passes as lists of steps -/

theorem run_ops_append (image : ppm_image) (sigma : Nat) (l1 l2 : List (Nat × Nat × Nat))
    (g : Grid) :
    run_ops image sigma (l1 ++ l2) g
      = (run_ops image sigma l1 g).bind (run_ops image sigma l2) := by
  induction l1 generalizing g with
  | nil => rfl
  | cons op rest ih =>
    show (sample_point image sigma op.1 op.2.1 op.2.2 g).bind (run_ops image sigma (rest ++ l2))
      = ((sample_point image sigma op.1 op.2.1 op.2.2 g).bind (run_ops image sigma rest)).bind
          (run_ops image sigma l2)
    cases sample_point image sigma op.1 op.2.1 op.2.2 g with
    | none => rfl
    | some g' => exact ih g'

theorem run_ops_single (image : ppm_image) (sigma idx i j : Nat) (g : Grid) :
    run_ops image sigma [(idx, i, j)] g = sample_point image sigma idx i j g := by
  simp only [run_ops]
  cases sample_point image sigma idx i j g <;> rfl

/-- A loop whose iterations run lists of steps runs the collected list. -/
theorem forLoop_run_ops (image : ppm_image) (sigma : Nat)
    (f : Nat → List (Nat × Nat × Nat)) :
    ∀ n lo g, forLoop (fun k g => run_ops image sigma (f k) g) n lo g
      = run_ops image sigma (loopList f n lo) g := by
  intro n
  induction n with
  | zero => intro lo g; rfl
  | succ n ih =>
    intro lo g
    simp only [forLoop, loopList, run_ops_append]
    cases run_ops image sigma (f lo) g with
    | none => rfl
    | some g' => simp only [Option.some_bind, ih]

/-- The sampling pass of a worker runs its list of steps in order. -/
theorem function_sample_eq_run_ops (image : ppm_image)
    (step_x step_y sigma t N : Nat) (g : Grid) :
    function_sample image step_x step_y sigma t N g
      = run_ops image sigma (function_sample_ops image step_x step_y t N) g := by
  unfold function_sample function_sample_ops sample_ops sample_interior sample_last_column
    sample_last_row
  rw [run_ops_append]
  have h1 : ∀ (s n : Nat) (g : Grid),
      forLoop (fun i g =>
        forLoop (fun j g =>
          sample_point image sigma (interior_index image step_x step_y i j) i j g)
          (image.y / step_y) 0 g) n s g
      = run_ops image sigma (loopList (fun i =>
          loopList (fun j => [(interior_index image step_x step_y i j, i, j)])
            (image.y / step_y) 0) n s) g := by
    intro s n g
    rw [← forLoop_run_ops]
    congr 1
    funext i g
    rw [← forLoop_run_ops]
    congr 1
    funext j g
    rw [run_ops_single]
  have h2 : ∀ (s n : Nat) (g : Grid),
      forLoop (fun i g =>
        sample_point image sigma (last_column_index image step_x i) i (image.y / step_y) g)
        n s g
      = run_ops image sigma (loopList (fun i =>
          [(last_column_index image step_x i, i, image.y / step_y)]) n s) g := by
    intro s n g
    rw [← forLoop_run_ops]
    congr 1
    funext i g
    rw [run_ops_single]
  have h3 : ∀ (s n : Nat) (g : Grid),
      forLoop (fun j g =>
        sample_point image sigma (last_row_index image step_y j) (image.x / step_x) j g)
        n s g
      = run_ops image sigma (loopList (fun j =>
          [(last_row_index image step_y j, image.x / step_x, j)]) n s) g := by
    intro s n g
    rw [← forLoop_run_ops]
    congr 1
    funext j g
    rw [run_ops_single]
  rw [h1]
  congr 1
  funext g1
  rw [run_ops_append, h2]
  congr 1
  funext g2
  rw [h3]

/-- The sampling passes of all workers run the steps of worker 0, then those
of worker 1, and so on. -/
theorem sample_all_eq_run_ops (image : ppm_image) (step_x step_y sigma N : Nat) (g : Grid) :
    sample_all image step_x step_y sigma N g
      = run_ops image sigma
          (loopList (fun t => function_sample_ops image step_x step_y t N) N 0) g := by
  unfold sample_all
  rw [← forLoop_run_ops]
  congr 1
  funext t g
  rw [function_sample_eq_run_ops]

/-- Steps that write pairwise different cells can be run in any order. -/
theorem run_ops_perm (image : ppm_image) (sigma : Nat) (l1 l2 : List (Nat × Nat × Nat))
    (h : l1.Perm l2) :
    l1.Pairwise (fun a b => op_cell a ≠ op_cell b) →
      ∀ g, run_ops image sigma l1 g = run_ops image sigma l2 g := by
  induction h with
  | nil => intro _ g; rfl
  | cons x _ ih =>
    intro hp g
    simp only [run_ops]
    have hrest := ih (List.Pairwise.of_cons hp)
    cases sample_point image sigma x.1 x.2.1 x.2.2 g with
    | none => rfl
    | some g' => simp only [Option.some_bind, hrest]
  | swap x y l =>
    intro hp g
    simp only [run_ops]
    have hxy : op_cell y ≠ op_cell x := (List.pairwise_cons.mp hp).1 x (List.mem_cons_self x l)
    have hne : ¬ (y.2.1 = x.2.1 ∧ y.2.2 = x.2.2) := by
      intro hc
      apply hxy
      unfold op_cell
      rw [hc.1, hc.2]
    have hcomm := sample_point_comm image sigma y.1 y.2.1 y.2.2 x.1 x.2.1 x.2.2 g hne
    rw [← Option.bind_assoc, ← Option.bind_assoc, hcomm]
  | trans h1 _ ih1 ih2 =>
    intro hp g
    have hp2 := (h1.pairwise_iff (fun h => Ne.symm h)).mp hp
    rw [ih1 hp g, ih2 hp2 g]

theorem loopList_add {α : Type} (f : Nat → List α) :
    ∀ a b lo, loopList f (a + b) lo = loopList f a lo ++ loopList f b (lo + a) := by
  intro a
  induction a with
  | zero => intro b lo; simp [loopList]
  | succ a ih =>
    intro b lo
    have h : a + 1 + b = (a + b) + 1 := by omega
    rw [h]
    simp only [loopList, List.append_assoc]
    rw [ih b (lo + 1)]
    have h2 : lo + 1 + a = lo + (a + 1) := by omega
    rw [h2]

theorem loopList_append_perm {α : Type} (f g : Nat → List α) :
    ∀ n lo, (loopList (fun t => f t ++ g t) n lo).Perm (loopList f n lo ++ loopList g n lo) := by
  intro n
  induction n with
  | zero => intro lo; exact List.Perm.refl _
  | succ n ih =>
    intro lo
    simp only [loopList]
    have h1 : (f lo ++ g lo ++ loopList (fun t => f t ++ g t) n (lo + 1)).Perm
        (f lo ++ g lo ++ (loopList f n (lo + 1) ++ loopList g n (lo + 1))) :=
      List.Perm.append_left _ (ih (lo + 1))
    refine h1.trans ?_
    rw [List.append_assoc, List.append_assoc]
    refine List.Perm.append_left _ ?_
    rw [← List.append_assoc, ← List.append_assoc]
    exact List.Perm.append_right _ List.perm_append_comm

/-- The row ranges of workers `0 .. k - 1`, one after the other, are the rows
`0 .. range_start k - 1`. -/
theorem loopList_ranges {α : Type} (f : Nat → List α) (p N : Nat) :
    ∀ k, k ≤ N →
      loopList (fun t =>
        loopList f (range_end t p N - range_start t p N) (range_start t p N)) k 0
      = loopList f (range_start k p N) 0 := by
  intro k
  induction k with
  | zero =>
    intro _
    rw [range_start_zero]
    rfl
  | succ k ih =>
    intro hk
    have hkN : k < N := by omega
    have h1 := loopList_add
      (fun t => loopList f (range_end t p N - range_start t p N) (range_start t p N)) k 1 0
    rw [h1, ih (by omega)]
    have hes := range_end_eq_start_succ k p N hkN
    have hle := range_start_le_end k p N hkN
    have h2 : range_start (k + 1) p N
        = range_start k p N + (range_end k p N - range_start k p N) := by omega
    rw [h2, loopList_add f (range_start k p N) _ 0]
    simp [loopList]

theorem pairwise_loopList {α : Type} (R : α → α → Prop) (f : Nat → List α) :
    ∀ n lo, (∀ i, lo ≤ i → i < lo + n → (f i).Pairwise R) →
      (∀ i i', lo ≤ i → i < i' → i' < lo + n → ∀ a ∈ f i, ∀ b ∈ f i', R a b) →
      (loopList f n lo).Pairwise R := by
  intro n
  induction n with
  | zero => intro lo _ _; exact List.Pairwise.nil
  | succ n ih =>
    intro lo h1 h2
    simp only [loopList]
    rw [List.pairwise_append]
    refine ⟨h1 lo (Nat.le_refl lo) (by omega), ?_, ?_⟩
    · exact ih (lo + 1) (fun i hi1 hi2 => h1 i (by omega) (by omega))
        (fun i i' hi1 hi2 hi3 => h2 i i' (by omega) hi2 (by omega))
    · intro a ha b hb
      rw [mem_loopList] at hb
      obtain ⟨i', hi1, hi2, hb'⟩ := hb
      exact h2 lo i' (Nat.le_refl lo) (by omega) (by omega) a ha b hb'

/-- The sampling steps of a row range inside `0 .. p` write pairwise different
cells. -/
theorem sample_ops_pairwise (image : ppm_image) (step_x step_y p q s e : Nat) (he : e ≤ p) :
    (sample_ops image step_x step_y p q s e).Pairwise (fun a b => op_cell a ≠ op_cell b) := by
  unfold sample_ops
  rw [List.pairwise_append, List.pairwise_append]
  refine ⟨?_, ⟨?_, ?_, ?_⟩, ?_⟩
  · apply pairwise_loopList
    · intro i _ _
      apply pairwise_loopList
      · intro j _ _
        exact List.pairwise_singleton _ _
      · intro j j' _ hj _ a ha b hb
        rw [List.mem_singleton] at ha hb
        subst ha
        subst hb
        simp only [op_cell, ne_eq, Prod.mk.injEq, not_and]
        omega
    · intro i i' _ hi _ a ha b hb
      rw [mem_loopList] at ha hb
      obtain ⟨j, _, _, ha⟩ := ha
      obtain ⟨j', _, _, hb⟩ := hb
      rw [List.mem_singleton] at ha hb
      subst ha
      subst hb
      simp only [op_cell, ne_eq, Prod.mk.injEq, not_and]
      omega
  · apply pairwise_loopList
    · intro i _ _
      exact List.pairwise_singleton _ _
    · intro i i' _ hi _ a ha b hb
      rw [List.mem_singleton] at ha hb
      subst ha
      subst hb
      simp only [op_cell, ne_eq, Prod.mk.injEq, not_and]
      omega
  · apply pairwise_loopList
    · intro j _ _
      exact List.pairwise_singleton _ _
    · intro j j' _ hj _ a ha b hb
      rw [List.mem_singleton] at ha hb
      subst ha
      subst hb
      simp only [op_cell, ne_eq, Prod.mk.injEq, not_and]
      omega
  · intro a ha b hb
    rw [mem_loopList] at ha hb
    obtain ⟨i, hi1, hi2, ha⟩ := ha
    obtain ⟨j, _, _, hb⟩ := hb
    rw [List.mem_singleton] at ha hb
    subst ha
    subst hb
    simp only [op_cell, ne_eq, Prod.mk.injEq, not_and]
    omega
  · intro a ha b hb
    rw [mem_loopList] at ha
    obtain ⟨i, hi1, hi2, ha⟩ := ha
    rw [mem_loopList] at ha
    obtain ⟨j, _, hj2, ha⟩ := ha
    rw [List.mem_singleton] at ha
    subst ha
    rw [List.mem_append, mem_loopList, mem_loopList] at hb
    rcases hb with ⟨i', _, _, hb⟩ | ⟨j', _, _, hb⟩
    · rw [List.mem_singleton] at hb
      subst hb
      simp only [op_cell, ne_eq, Prod.mk.injEq, not_and]
      omega
    · rw [List.mem_singleton] at hb
      subst hb
      simp only [op_cell, ne_eq, Prod.mk.injEq, not_and]
      omega

/-- The steps of all `N ≥ 1` workers, worker after worker, are a rearrangement
of the steps of one worker that has all the rows. -/
theorem sample_ops_workers_perm (image : ppm_image) (step_x step_y N : Nat) (hN : 1 ≤ N) :
    (loopList (fun t => function_sample_ops image step_x step_y t N) N 0).Perm
      (sample_ops image step_x step_y (image.x / step_x) (image.y / step_y)
        0 (image.x / step_x)) := by
  unfold function_sample_ops sample_ops
  refine (loopList_append_perm _ _ N 0).trans ?_
  refine (List.Perm.append_left _ (loopList_append_perm _ _ N 0)).trans ?_
  rw [loopList_ranges _ (image.x / step_x) N N (Nat.le_refl N),
    loopList_ranges _ (image.x / step_x) N N (Nat.le_refl N),
    loopList_ranges _ (image.x / step_x) N N (Nat.le_refl N),
    range_start_last _ _ hN, Nat.sub_zero]

/-- The sampling passes of `N ≥ 1` workers give what the steps of a single
worker with all the rows give. -/
theorem sample_all_eq_single (image : ppm_image) (step_x step_y sigma N : Nat) (g : Grid)
    (hN : 1 ≤ N) :
    sample_all image step_x step_y sigma N g
      = run_ops image sigma
          (sample_ops image step_x step_y (image.x / step_x) (image.y / step_y)
            0 (image.x / step_x)) g := by
  rw [sample_all_eq_run_ops]
  exact (run_ops_perm image sigma _ _
    (sample_ops_workers_perm image step_x step_y N hN).symm
    (sample_ops_pairwise image step_x step_y _ _ 0 _ (Nat.le_refl _)) g).symm

/-! ## One worker or many -/

theorem forLoop_add {σ : Type} (body : Nat → σ → Option σ) :
    ∀ a b lo s, forLoop body (a + b) lo s
      = (forLoop body a lo s).bind (forLoop body b (lo + a)) := by
  intro a
  induction a with
  | zero => intro b lo s; simp [forLoop]
  | succ a ih =>
    intro b lo s
    have h : a + 1 + b = (a + b) + 1 := by omega
    rw [h]
    simp only [forLoop]
    cases body lo s with
    | none => rfl
    | some s' =>
      simp only [Option.some_bind]
      rw [ih b (lo + 1) s']
      have h2 : lo + 1 + a = lo + (a + 1) := by omega
      rw [h2]

theorem forLoop_one {σ : Type} (body : Nat → σ → Option σ) (lo : Nat) (s : σ) :
    forLoop body 1 lo s = body lo s := by
  simp only [forLoop]
  cases body lo s <;> rfl

/-- A property every iteration keeps is kept by the loop. -/
theorem forLoop_preserves {σ : Type} (body : Nat → σ → Option σ) (P : σ → Prop)
    (hbody : ∀ i s s', body i s = some s' → P s → P s') :
    ∀ n lo s s', forLoop body n lo s = some s' → P s → P s' := by
  intro n
  induction n with
  | zero =>
    intro lo s s' h hp
    simp only [forLoop, Option.some.injEq] at h
    rw [← h]
    exact hp
  | succ n ih =>
    intro lo s s' h hp
    simp only [forLoop] at h
    cases hb : body lo s with
    | none =>
      rw [hb] at h
      exact absurd h (by simp)
    | some s1 =>
      rw [hb] at h
      exact ih (lo + 1) s1 s' h (hbody lo s s1 hb hp)

theorem pixel_set_dims (img img' : ppm_image) (idx : Nat) (px : ppm_pixel)
    (h : pixel_set img idx px = some img') : img'.x = img.x ∧ img'.y = img.y := by
  unfold pixel_set at h
  split at h
  · simp only [Option.some.injEq] at h
    rw [← h]
    exact ⟨rfl, rfl⟩
  · exact absurd h (by simp)

theorem update_image_dims (image contour img' : ppm_image) (x y : Nat)
    (h : update_image image contour x y = some img') :
    img'.x = image.x ∧ img'.y = image.y := by
  unfold update_image at h
  refine forLoop_preserves _ (fun t => t.x = image.x ∧ t.y = image.y) ?_ _ _ _ _ h ⟨rfl, rfl⟩
  intro i s s' hs hp
  refine forLoop_preserves _ (fun t => t.x = image.x ∧ t.y = image.y) ?_ _ _ _ _ hs hp
  intro j t t' ht hq
  split at ht
  · exact absurd ht (by simp)
  · have := pixel_set_dims _ _ _ _ ht
    exact ⟨by omega, by omega⟩

theorem march_cell_dims (grid : Grid) (contour_map : List ppm_image)
    (step_x step_y i j : Nat) (image img' : ppm_image)
    (h : march_cell grid contour_map step_x step_y i j image = some img') :
    img'.x = image.x ∧ img'.y = image.y := by
  unfold march_cell at h
  split at h
  · exact absurd h (by simp)
  · split at h
    · exact absurd h (by simp)
    · exact update_image_dims _ _ _ _ _ h

theorem march_rows_dims (grid : Grid) (contour_map : List ppm_image)
    (step_x step_y q s e : Nat) (image img' : ppm_image)
    (h : march_rows grid contour_map step_x step_y q s e image = some img') :
    img'.x = image.x ∧ img'.y = image.y := by
  unfold march_rows at h
  refine forLoop_preserves _ (fun t => t.x = image.x ∧ t.y = image.y) ?_ _ _ _ _ h ⟨rfl, rfl⟩
  intro i s s' hs hp
  refine forLoop_preserves _ (fun t => t.x = image.x ∧ t.y = image.y) ?_ _ _ _ _ hs hp
  intro j t t' ht hq
  have := march_cell_dims _ _ _ _ _ _ _ _ ht
  exact ⟨by omega, by omega⟩

/-- The marching passes of workers `0 .. k - 1`, one after the other, are the
marching loop over the rows `0 .. range_start k - 1`. -/
theorem march_all_rows_upto (grid : Grid) (contour_map : List ppm_image)
    (step_x step_y N : Nat) (image : ppm_image) :
    ∀ k, k ≤ N →
      forLoop (fun t img => function_march grid contour_map step_x step_y t N img) k 0 image
      = march_rows grid contour_map step_x step_y (image.y / step_y) 0
          (range_start k (image.x / step_x) N) image := by
  intro k
  induction k with
  | zero =>
    intro _
    rw [range_start_zero]
    rfl
  | succ k ih =>
    intro hk
    have hkN : k < N := by omega
    have hes := range_end_eq_start_succ k (image.x / step_x) N hkN
    have hle := range_start_le_end k (image.x / step_x) N hkN
    rw [forLoop_add _ k 1 0 image, ih (by omega)]
    have h2 : range_start (k + 1) (image.x / step_x) N - 0
        = range_start k (image.x / step_x) N
          + (range_end k (image.x / step_x) N - range_start k (image.x / step_x) N) := by
      omega
    conv_rhs => unfold march_rows; rw [h2, forLoop_add]
    cases hr : march_rows grid contour_map step_x step_y (image.y / step_y) 0
        (range_start k (image.x / step_x) N) image with
    | none =>
      unfold march_rows at hr
      rw [Nat.sub_zero] at hr
      rw [hr]
      rfl
    | some img =>
      obtain ⟨hx, hy⟩ := march_rows_dims _ _ _ _ _ _ _ _ _ hr
      unfold march_rows at hr
      rw [Nat.sub_zero] at hr
      rw [hr]
      simp only [Option.some_bind, Nat.zero_add]
      rw [forLoop_one]
      simp only [function_march, march_rows, hx, hy]

/-- The marching passes of `N ≥ 1` workers are the marching loop over all the
rows. -/
theorem march_all_eq_rows (grid : Grid) (contour_map : List ppm_image)
    (step_x step_y N : Nat) (image : ppm_image) (hN : 1 ≤ N) :
    march_all grid contour_map step_x step_y N image
      = march_rows grid contour_map step_x step_y (image.y / step_y) 0
          (image.x / step_x) image := by
  unfold march_all
  rw [march_all_rows_upto grid contour_map step_x step_y N image N (Nat.le_refl N),
    range_start_last _ _ hN]

/-- C12. With all sampling passes completed before the marching passes start,
`N ≥ 1` workers produce the grid and the canvas a single worker produces, for
every canvas, grid, catalog, step and threshold (a run that fails on an access
outside a buffer fails for every thread count). -/
theorem thread_count_independent (image : ppm_image) (contour_map : List ppm_image)
    (step_x step_y sigma N : Nat) (grid : Grid) (hN : 1 ≤ N) :
    sample_all image step_x step_y sigma N grid
      = sample_all image step_x step_y sigma 1 grid ∧
    (∀ g, march_all g contour_map step_x step_y N image
      = march_all g contour_map step_x step_y 1 image) ∧
    sample_then_march image contour_map step_x step_y sigma N grid
      = sample_then_march image contour_map step_x step_y sigma 1 grid := by
  have h1 : sample_all image step_x step_y sigma N grid
      = sample_all image step_x step_y sigma 1 grid := by
    rw [sample_all_eq_single image step_x step_y sigma N grid hN,
      sample_all_eq_single image step_x step_y sigma 1 grid (Nat.le_refl 1)]
  have h2 : ∀ g, march_all g contour_map step_x step_y N image
      = march_all g contour_map step_x step_y 1 image := by
    intro g
    rw [march_all_eq_rows g contour_map step_x step_y N image hN,
      march_all_eq_rows g contour_map step_x step_y 1 image (Nat.le_refl 1)]
  refine ⟨h1, h2, ?_⟩
  unfold sample_then_march
  rw [h1]
  congr 1
  funext g
  rw [h2 g]

/-- Witness for C12: a white canvas of 4 by 4 pixels, step 2, eight workers;
the run returns. -/
theorem thread_count_independent_witness :
    (sample_then_march (solid 4 4 255) catalog_2x2 2 2 SIGMA 8 (fresh_grid 0 3 3)
      = sample_then_march (solid 4 4 255) catalog_2x2 2 2 SIGMA 1 (fresh_grid 0 3 3)) ∧
    (sample_then_march (solid 4 4 255) catalog_2x2 2 2 SIGMA 1 (fresh_grid 0 3 3)).isSome
      = true :=
  ⟨(thread_count_independent (solid 4 4 255) catalog_2x2 2 2 SIGMA 8 (fresh_grid 0 3 3)
      (by decide)).2.2, by decide⟩

/-! ## The barrier orders the downscale writes before the sampling reads -/

theorem pairwise_of_left {α : Type} (R : α → α → Prop) (l : List α)
    (h : ∀ a ∈ l, ∀ b, R a b) : l.Pairwise R := by
  induction l with
  | nil => exact List.Pairwise.nil
  | cons x xs ih =>
    rw [List.pairwise_cons]
    exact ⟨fun b _ => h x (List.mem_cons_self x xs) b,
      ih (fun a ha b => h a (List.mem_cons_of_mem x ha) b)⟩

theorem reads_after_writes_of_no_read (events : List (Nat × worker_step))
    (h : ∀ e ∈ events, is_sample_read e.2 = false) : reads_after_writes events := by
  apply pairwise_of_left
  intro a ha b hab
  rw [h a ha] at hab
  exact absurd hab.1 (by simp)

theorem reads_after_writes_snoc (events : List (Nat × worker_step)) (e : Nat × worker_step)
    (h : reads_after_writes events) (he : is_downscale_write e.2 = false) :
    reads_after_writes (events ++ [e]) := by
  unfold reads_after_writes at *
  rw [List.pairwise_append]
  refine ⟨h, List.pairwise_singleton _ _, ?_⟩
  intro a _ b hb hab
  rw [List.mem_singleton] at hb
  subst hb
  rw [he] at hab
  exact absurd hab.2 (by simp)

/-- While the barrier is closed a step keeps it closed or opens it for
everybody at once. -/
theorem sched_step_closed (N : Nat) (st : List thread_state × List (Nat × worker_step))
    (t : Nat) (h : barrier_closed N st) :
    barrier_closed N (sched_step N st t) ∨ barrier_passed (sched_step N st t) := by
  obtain ⟨hlen, hth, hev⟩ := h
  unfold sched_step
  cases hget : st.1[t]? with
  | none => exact Or.inl ⟨hlen, hth, hev⟩
  | some th =>
    have hmem : th ∈ st.1 := List.getElem?_mem hget
    simp only
    by_cases hb : th.blocked = true
    · rw [if_pos hb]
      exact Or.inl ⟨hlen, hth, hev⟩
    · rw [if_neg hb]
      have hbefore : before_barrier th.rest = true := by
        rcases hth th hmem with h1 | h1
        · exact absurd h1.1 hb
        · exact h1.2
      cases hrest : th.rest with
      | nil =>
        exact Or.inl ⟨hlen, hth, hev⟩
      | cons s r =>
        rw [hrest] at hbefore
        cases s with
        | downscale_write idx =>
          simp only [before_barrier] at hbefore
          refine Or.inl ⟨by simp [hlen], ?_, ?_⟩
          · intro th' hth'
            rcases List.mem_or_eq_of_mem_set hth' with h1 | h1
            · exact hth th' h1
            · rw [h1]
              exact Or.inr ⟨rfl, hbefore⟩
          · intro e he
            rw [List.mem_append, List.mem_singleton] at he
            rcases he with h1 | h1
            · exact hev e h1
            · rw [h1]
              rfl
        | barrier_wait =>
          simp only [before_barrier] at hbefore
          have hall : ∀ th' ∈ st.1.set t ⟨true, r⟩,
              (th'.blocked = true ∧ after_barrier th'.rest = true) ∨
              (th'.blocked = false ∧ before_barrier th'.rest = true) := by
            intro th' hth'
            rcases List.mem_or_eq_of_mem_set hth' with h1 | h1
            · exact hth th' h1
            · rw [h1]
              exact Or.inl ⟨rfl, hbefore⟩
          have hnoread : ∀ e ∈ st.2 ++ [(t, worker_step.barrier_wait)],
              is_sample_read e.2 = false := by
            intro e he
            rw [List.mem_append, List.mem_singleton] at he
            rcases he with h1 | h1
            · exact hev e h1
            · rw [h1]
              rfl
          simp only
          by_cases hc : (st.1.set t ⟨true, r⟩).countP (fun th => th.blocked) = N
          · rw [if_pos hc]
            right
            have hlen2 : (st.1.set t ⟨true, r⟩).length = N := by simp [hlen]
            rw [← hlen2, List.countP_eq_length] at hc
            refine ⟨?_, reads_after_writes_of_no_read _ hnoread⟩
            intro th' hth'
            unfold release at hth'
            rw [List.mem_map] at hth'
            obtain ⟨th0, h0, h1⟩ := hth'
            rw [← h1]
            refine ⟨rfl, ?_⟩
            rcases hall th0 h0 with h2 | h2
            · exact h2.2
            · have := hc th0 h0
              rw [h2.1] at this
              exact absurd this (by simp)
          · rw [if_neg hc]
            exact Or.inl ⟨by simp [hlen], hall, hnoread⟩
        | sample_read idx =>
          simp only [before_barrier] at hbefore
          exact absurd hbefore (by simp)

/-- Once the barrier has let everybody through, no step is a downscale write. -/
theorem sched_step_passed (N : Nat) (st : List thread_state × List (Nat × worker_step))
    (t : Nat) (h : barrier_passed st) : barrier_passed (sched_step N st t) := by
  obtain ⟨hth, hev⟩ := h
  unfold sched_step
  cases hget : st.1[t]? with
  | none => exact ⟨hth, hev⟩
  | some th =>
    have hmem : th ∈ st.1 := List.getElem?_mem hget
    obtain ⟨hb, hafter⟩ := hth th hmem
    simp only [hb]
    cases hrest : th.rest with
    | nil => exact ⟨hth, hev⟩
    | cons s r =>
      rw [hrest] at hafter
      simp only [after_barrier, List.all_cons, Bool.and_eq_true] at hafter
      obtain ⟨hs, hr⟩ := hafter
      cases s with
      | downscale_write idx => exact absurd hs (by simp [is_sample_read])
      | barrier_wait => exact absurd hs (by simp [is_sample_read])
      | sample_read idx =>
        refine ⟨?_, reads_after_writes_snoc _ _ hev rfl⟩
        intro th' hth'
        rcases List.mem_or_eq_of_mem_set hth' with h1 | h1
        · exact hth th' h1
        · rw [h1]
          exact ⟨rfl, hr⟩

theorem run_schedule_invariant (N : Nat) (sched : List Nat) :
    ∀ st, (barrier_closed N st ∨ barrier_passed st) →
      (barrier_closed N (run_schedule N st sched) ∨ barrier_passed (run_schedule N st sched)) := by
  induction sched with
  | nil => intro st h; exact h
  | cons t sched ih =>
    intro st h
    simp only [run_schedule]
    apply ih
    rcases h with h | h
    · exact sched_step_closed N st t h
    · exact Or.inr (sched_step_passed N st t h)

theorem before_barrier_program (ws : List Nat) (post : List worker_step)
    (hpost : after_barrier post = true) :
    before_barrier (ws.map worker_step.downscale_write ++ worker_step.barrier_wait :: post)
      = true := by
  induction ws with
  | nil => simpa [before_barrier] using hpost
  | cons w ws ih => simpa [before_barrier] using ih

theorem initial_state_closed (image new_image : ppm_image) (step_x step_y N : Nat) :
    barrier_closed N (initial_state image new_image step_x step_y N) := by
  refine ⟨by simp [initial_state], ?_, ?_⟩
  · intro th hth
    simp only [initial_state, List.mem_map, List.mem_range] at hth
    obtain ⟨t, _, h⟩ := hth
    rw [← h]
    refine Or.inr ⟨rfl, ?_⟩
    unfold worker_program
    apply before_barrier_program
    simp only [after_barrier, List.all_eq_true, List.mem_map]
    rintro s ⟨op, _, hs⟩
    rw [← hs]
    rfl
  · intro e he
    simp [initial_state] at he

/-- C16. In every execution of the `N` workers with the barrier of `main`
(count `N`), whatever the scheduler does: no sampling read of the canvas is
followed by a downscale write, and once a sampling read has been made no
worker has a downscale write left to do. -/
theorem barrier_orders_downscale_before_sampling (image new_image : ppm_image)
    (step_x step_y N : Nat) (sched : List Nat) :
    reads_after_writes
      (run_schedule N (initial_state image new_image step_x step_y N) sched).2 ∧
    ((∃ e ∈ (run_schedule N (initial_state image new_image step_x step_y N) sched).2,
        is_sample_read e.2 = true) →
      ∀ th ∈ (run_schedule N (initial_state image new_image step_x step_y N) sched).1,
        ∀ s ∈ th.rest, is_downscale_write s = false) := by
  have h := run_schedule_invariant N sched _
    (Or.inl (initial_state_closed image new_image step_x step_y N))
  rcases h with ⟨_, _, hev⟩ | ⟨hth, hev⟩
  · refine ⟨reads_after_writes_of_no_read _ hev, ?_⟩
    rintro ⟨e, he, hr⟩
    rw [hev e he] at hr
    exact absurd hr (by simp)
  · refine ⟨hev, ?_⟩
    intro _ th hmem s hs
    have hafter := (hth th hmem).2
    simp only [after_barrier, List.all_eq_true] at hafter
    have := hafter s hs
    cases s with
    | downscale_write idx => exact absurd this (by simp [is_sample_read])
    | barrier_wait => rfl
    | sample_read idx => rfl

/-- An execution of two workers on a source of 2049 rows (so that the
downscale loop runs) and a target of 2 by 2 pixels: worker 0 writes its row
and waits; while it is blocked the scheduler cannot make it read; worker 1
writes its row, reaches the barrier, and only then the sampling reads start. -/
theorem barrier_example_run :
    (run_schedule 2 (initial_state (solid 2049 1 9) (solid 2 2 0) 1 1 2)
        [0, 0, 0, 0, 1, 1, 1, 1, 0]).2
      = [(0, worker_step.downscale_write 0), (0, worker_step.downscale_write 1),
         (0, worker_step.barrier_wait),
         (1, worker_step.downscale_write 2), (1, worker_step.downscale_write 3),
         (1, worker_step.barrier_wait),
         (1, worker_step.sample_read 2), (0, worker_step.sample_read 0)] := by
  decide

/-! ## The traces cover what the code changes -/

/-- A property kept by every iteration in range is kept by the loop. -/
theorem forLoop_preserves_range {σ : Type} (body : Nat → σ → Option σ) (P : σ → Prop) :
    ∀ n lo, (∀ i s s', lo ≤ i → i < lo + n → body i s = some s' → P s → P s') →
      ∀ s s', forLoop body n lo s = some s' → P s → P s' := by
  intro n
  induction n with
  | zero =>
    intro lo _ s s' h hp
    simp only [forLoop, Option.some.injEq] at h
    rw [← h]
    exact hp
  | succ n ih =>
    intro lo hbody s s' h hp
    simp only [forLoop] at h
    cases hb : body lo s with
    | none =>
      rw [hb] at h
      exact absurd h (by simp)
    | some s1 =>
      rw [hb] at h
      exact ih (lo + 1) (fun i t t' h1 h2 => hbody i t t' (by omega) (by omega)) s1 s' h
        (hbody lo s s1 (Nat.le_refl lo) (by omega) hb hp)

theorem pixel_set_frame (img img' : ppm_image) (idx : Nat) (px : ppm_pixel)
    (h : pixel_set img idx px = some img') :
    ∀ m, m ≠ idx → img'.data[m]? = img.data[m]? := by
  unfold pixel_set at h
  split at h
  · simp only [Option.some.injEq] at h
    intro m hm
    rw [← h]
    simp only
    rw [List.getElem?_set]
    rw [if_neg (fun e => hm e.symm)]
  · exact absurd h (by simp)

/-- Source `update_image` changes no pixel outside `update_image_writes`. -/
theorem update_image_frame (image contour img' : ppm_image) (x y : Nat)
    (h : update_image image contour x y = some img') :
    ∀ m, m ∉ update_image_writes image contour x y → img'.data[m]? = image.data[m]? := by
  unfold update_image at h
  refine forLoop_preserves_range _
    (fun t => ∀ m, m ∉ update_image_writes image contour x y → t.data[m]? = image.data[m]?)
    _ _ ?_ _ _ h (fun _ _ => rfl)
  intro i s s' hi1 hi2 hs hp
  refine forLoop_preserves_range _
    (fun t => ∀ m, m ∉ update_image_writes image contour x y → t.data[m]? = image.data[m]?)
    _ _ ?_ _ _ hs hp
  intro j t t' hj1 hj2 ht hq m hm
  split at ht
  · exact absurd ht (by simp)
  · have hne : m ≠ (x + i) * image.y + y + j := by
      intro e
      apply hm
      rw [mem_update_image_writes]
      exact ⟨i, j, by omega, by omega, e⟩
    rw [pixel_set_frame _ _ _ _ ht m hne]
    exact hq m hm

/-- The marching loop over the rows `s .. e - 1` changes no pixel outside
`march_writes`. -/
theorem march_rows_frame (grid : Grid) (contour_map : List ppm_image)
    (step_x step_y q s e : Nat) (image img' : ppm_image)
    (h : march_rows grid contour_map step_x step_y q s e image = some img') :
    ∀ m, m ∉ march_writes grid contour_map step_x step_y q s e image →
      img'.data[m]? = image.data[m]? := by
  have key : img'.y = image.y ∧
      ∀ m, m ∉ march_writes grid contour_map step_x step_y q s e image →
        img'.data[m]? = image.data[m]? := by
    unfold march_rows at h
    refine forLoop_preserves_range _
      (fun t => t.y = image.y ∧
        ∀ m, m ∉ march_writes grid contour_map step_x step_y q s e image →
          t.data[m]? = image.data[m]?)
      _ _ ?_ _ _ h ⟨rfl, fun _ _ => rfl⟩
    intro i u u' hi1 hi2 hu hp
    refine forLoop_preserves_range _
      (fun t => t.y = image.y ∧
        ∀ m, m ∉ march_writes grid contour_map step_x step_y q s e image →
          t.data[m]? = image.data[m]?)
      _ _ ?_ _ _ hu hp
    intro j t t' hj1 hj2 ht ⟨hy, hq⟩
    refine ⟨by rw [(march_cell_dims _ _ _ _ _ _ _ _ ht).2, hy], ?_⟩
    intro m hm
    unfold march_cell at ht
    split at ht
    · exact absurd ht (by simp)
    · rename_i k hk
      split at ht
      · exact absurd ht (by simp)
      · rename_i contour hc
        have hnot : m ∉ update_image_writes t contour (i * step_x) (j * step_y) := by
          intro hin
          apply hm
          unfold march_writes
          rw [mem_loopList]
          refine ⟨i, hi1, hi2, ?_⟩
          rw [mem_loopList]
          refine ⟨j, hj1, hj2, ?_⟩
          simp only [hk, hc]
          rw [mem_update_image_writes] at hin ⊢
          rw [hy] at hin
          exact hin
        rw [update_image_frame _ _ _ _ _ ht m hnot]
        exact hq m hm
  exact key.2

/-- The resampling loop over the rows `s .. e - 1` changes no pixel outside
`rescale_writes`. -/
theorem rescale_rows_frame (sample_bicubic : ppm_image → Nat → Nat → ppm_pixel)
    (image new_image img' : ppm_image) (s e : Nat)
    (h : rescale_rows sample_bicubic image new_image s e = some img') :
    ∀ m, m ∉ rescale_writes new_image s e → img'.data[m]? = new_image.data[m]? := by
  unfold rescale_rows at h
  refine forLoop_preserves_range _
    (fun t => ∀ m, m ∉ rescale_writes new_image s e → t.data[m]? = new_image.data[m]?)
    _ _ ?_ _ _ h (fun _ _ => rfl)
  intro i u u' hi1 hi2 hu hp
  refine forLoop_preserves_range _
    (fun t => ∀ m, m ∉ rescale_writes new_image s e → t.data[m]? = new_image.data[m]?)
    _ _ ?_ _ _ hu hp
  intro j t t' hj1 hj2 ht hq m hm
  have hne : m ≠ i * new_image.y + j := by
    intro e1
    apply hm
    rw [mem_rescale_writes]
    exact ⟨i, j, hi1, by omega, by omega, e1⟩
  rw [pixel_set_frame _ _ _ _ ht m hne]
  exact hq m hm

end Tema1
